import Mathlib

/-!
# Atlas durability core: cache-line collection, fenced flushing, circular log, store instrumentation

A shallow embedding of

* `src/cache_flush/delayed.cpp` (`LogMgr::collectCacheLines`, `LogMgr::flushCacheLines`,
  `LogMgr::flushCacheLinesUnconstrained`),
* `src/internal_includes/circular_buffer.hpp` (`CbLog::isFull`, `CbLog::isEmpty`),
* `NvmInstrumenter::getCallOperationType`, `NvmInstrumenter::runOnFunction`,
  `NvmInstrumenter::performNvmInstrumentation` and `NvmInstrumenter::addMemInstrumentation`
  (`compiler-plugin/src/Instrumentation/NvmInstrumenter.cpp`),

followed by the properties proved about them.

Machine integers are natural numbers reduced modulo `2 ^ 64` (addresses, `size_t`) or
`2 ^ 32` (`uint32_t`) wherever the C++ arithmetic can wrap.
-/

namespace Atlas

/-! ## Machine words -/

/-- Number of values of a 64-bit word (`uint64_t`, `size_t`, `char*`). -/
def WORD : Nat := 2 ^ 64

/-- Addition of 64-bit words (`char*` plus `size_t`), wrapping. -/
def wadd (x y : Nat) : Nat := (x + y) % WORD

/-- Subtraction of 64-bit words, wrapping. -/
def wsub (x y : Nat) : Nat := (x % WORD + (WORD - y % WORD)) % WORD

/-! ## Build configuration and outcomes -/

/-- The preprocessor switches that select the code of `delayed.cpp`:
`forceFail` is `_FORCE_FAIL`, `globalCommit` is `_FLUSH_GLOBAL_COMMIT`.
(The file is compiled only when a flush policy is selected and `DISABLE_FLUSHES` is not.) -/
structure BuildCfg where
  forceFail : Bool
  globalCommit : Bool
deriving DecidableEq, Repr

/-- Result of running a routine that can abort the process or loop for ever:
`done r` is a normal return, `aborted` is a call of `fail_program()` that ends the
process, `outOfFuel` says the loop was still running when the step budget ended. -/
inductive Outcome (α : Type) where
  | done : α → Outcome α
  | aborted : Outcome α
  | outOfFuel : Outcome α
deriving DecidableEq, Repr

/-- Modelled from the spec: `fail_program()` is not part of the sources at hand. Each
routine of `delayed.cpp` calls it first when `_FORCE_FAIL` is defined, and the spec says
the routine then "fails fast (aborts)" (a fault-injection build, not a normal path).
`true`: the process ends at the call. -/
def fail_program : Bool := true

/-- The `#ifdef _FORCE_FAIL fail_program(); #endif` block at the head of each routine:
`true` when the routine ends there. -/
def BuildCfg.failsAtEntry (cfg : BuildCfg) : Bool := cfg.forceFail && fail_program

/-! ## `SetOfInts` -/

/-- Insertion of a key into a strictly increasing list of keys; a key already present
is not inserted again. -/
def insertKey (a : Nat) : List Nat → List Nat
  | [] => [a]
  | b :: l => if a < b then a :: b :: l else if a = b then b :: l else b :: insertKey a l

theorem mem_insertKey (a x : Nat) (l : List Nat) :
    x ∈ insertKey a l ↔ x = a ∨ x ∈ l := by
  induction l with
  | nil => simp [insertKey]
  | cons b l ih =>
    unfold insertKey
    split_ifs with h1 h2
    · simp
    · subst h2; simp
    · simp only [List.mem_cons, ih]; tauto

theorem sorted_insertKey (a : Nat) (l : List Nat) (h : l.Sorted (· < ·)) :
    (insertKey a l).Sorted (· < ·) := by
  induction l with
  | nil => simp [insertKey]
  | cons b l ih =>
    have hb := List.sorted_cons.1 h
    unfold insertKey
    split_ifs with h1 h2
    · refine List.sorted_cons.2 ⟨?_, h⟩
      intro y hy
      rcases List.mem_cons.1 hy with rfl | hy
      · exact h1
      · exact lt_trans h1 (hb.1 y hy)
    · exact h
    · refine List.sorted_cons.2 ⟨?_, ih hb.2⟩
      intro y hy
      rcases (mem_insertKey a y l).1 hy with rfl | hy
      · omega
      · exact hb.1 y hy

/-- Modelled from the spec: the type `SetOfInts` is declared in a header that is not part
of the sources at hand; the spec calls it "a set of unique Cache-Line Addresses". It is
an ordered set of 64-bit keys (`std::set<uint64_t>`), kept here as the strictly increasing
list of its keys, which is also the order in which `begin()` .. `end()` visits them. -/
structure SetOfInts where
  elems : List Nat
  sorted : elems.Sorted (· < ·)

namespace SetOfInts

/-- The set without keys. -/
def empty : SetOfInts := ⟨[], List.sorted_nil⟩

/-- The member function `insert` of the set. -/
def insert (s : SetOfInts) (a : Nat) : SetOfInts :=
  ⟨insertKey a s.elems, sorted_insertKey a s.elems s.sorted⟩

/-- The member function `size` of the set. -/
def size (s : SetOfInts) : Nat := s.elems.length

/-- Build a set from a list of keys by repeated `insert`. -/
def ofList (l : List Nat) : SetOfInts := l.foldl insert empty

instance : Membership Nat SetOfInts := ⟨fun s a => a ∈ s.elems⟩

instance : DecidableEq SetOfInts := fun s t =>
  decidable_of_iff (s.elems = t.elems)
    ⟨fun h => by cases s; cases t; cases h; rfl, fun h => by rw [h]⟩

instance (a : Nat) (s : SetOfInts) : Decidable (a ∈ s) :=
  inferInstanceAs (Decidable (a ∈ s.elems))

end SetOfInts

/-! ## `LogMgr::collectCacheLines` -/

/-- Modelled from the spec: `PMallocUtil::get_cache_line_mask()` is not part of the sources
at hand; the mask is the 64-bit complement of `L - 1` for the line size `L`
(`PMallocUtil::get_cache_line_size()`, a parameter here). -/
def get_cache_line_mask (L : Nat) : Nat := (WORD - 1) - (L - 1)

/-- The `do { ... } while (line_addr < last_line_addr + 1)` loop of `collectCacheLines`,
with a step budget: each round inserts `line_addr` and advances it by the line size. -/
def collectLoop (L last_line_addr : Nat) : Nat → SetOfInts → Nat → Outcome SetOfInts
  | 0, _, _ => Outcome.outOfFuel
  | fuel + 1, cl_set, line_addr =>
    let cl_set1 := cl_set.insert line_addr
    let line_addr1 := wadd line_addr L
    if line_addr1 < wadd last_line_addr 1 then
      collectLoop L last_line_addr fuel cl_set1 line_addr1
    else
      Outcome.done cl_set1

/-- `LogMgr::collectCacheLines(cl_set, addr, sz)` for line size `L`. -/
def collectCacheLines (cfg : BuildCfg) (L fuel : Nat) (cl_set : SetOfInts)
    (addr sz : Nat) : Outcome SetOfInts :=
  if cfg.failsAtEntry then Outcome.aborted
  else if sz = 0 then Outcome.done cl_set
  else
    let last_addr := wsub (wadd addr sz) 1
    let line_addr := addr &&& get_cache_line_mask L
    let last_line_addr := last_addr &&& get_cache_line_mask L
    collectLoop L last_line_addr fuel cl_set line_addr

/-! ## `LogMgr::flushCacheLines` and `LogMgr::flushCacheLinesUnconstrained` -/

/-- What a flush routine does to the outside world, in program order: `fence` is a call
of `full_fence()`, `query a n` a call of `NVM_IsInOpenPR(a, n)`, `clflush a` the
instruction issued by `NVM_CLFLUSH(a)`. -/
inductive Event where
  | fence : Event
  | query : Nat → Nat → Event
  | clflush : Nat → Event
deriving DecidableEq, Repr

/-- The events of one run of a flush routine and whether the routine returned
(`completed = false`: the process was ended by `fail_program()` or by a failed `assert`). -/
structure FlushRun where
  events : List Event
  completed : Bool
deriving DecidableEq, Repr

/-- The `for` loop of `flushCacheLines` over the keys in iteration order. The answer of
the Persistent-Region Query is the function `NVM_IsInOpenPR`. `assert(*ci)` ends the
run at a zero key. -/
def flushLoop (globalCommit : Bool) (NVM_IsInOpenPR : Nat → Nat → Bool) :
    List Nat → FlushRun
  | [] => ⟨[], true⟩
  | ci :: rest =>
    if ci = 0 then ⟨[], false⟩
    else
      let r := flushLoop globalCommit NVM_IsInOpenPR rest
      if globalCommit then
        if NVM_IsInOpenPR ci 1 then ⟨Event.query ci 1 :: Event.clflush ci :: r.events, r.completed⟩
        else ⟨Event.query ci 1 :: r.events, r.completed⟩
      else ⟨Event.clflush ci :: r.events, r.completed⟩

/-- `LogMgr::flushCacheLines(cl_set)`: leading fence, the loop, trailing fence. -/
def flushCacheLines (cfg : BuildCfg) (NVM_IsInOpenPR : Nat → Nat → Bool)
    (cl_set : SetOfInts) : FlushRun :=
  if cfg.failsAtEntry then ⟨[], false⟩
  else
    let r := flushLoop cfg.globalCommit NVM_IsInOpenPR cl_set.elems
    if r.completed then ⟨Event.fence :: (r.events ++ [Event.fence]), true⟩
    else ⟨Event.fence :: r.events, false⟩

/-- The `for` loop of `flushCacheLinesUnconstrained`. -/
def flushLoopUnconstrained : List Nat → FlushRun
  | [] => ⟨[], true⟩
  | ci :: rest =>
    if ci = 0 then ⟨[], false⟩
    else
      let r := flushLoopUnconstrained rest
      ⟨Event.clflush ci :: r.events, r.completed⟩

/-- `LogMgr::flushCacheLinesUnconstrained(cl_set)`. -/
def flushCacheLinesUnconstrained (cfg : BuildCfg) (cl_set : SetOfInts) : FlushRun :=
  if cfg.failsAtEntry then ⟨[], false⟩
  else flushLoopUnconstrained cl_set.elems

/-- Tells the fence events. -/
def Event.isFence : Event → Bool
  | Event.fence => true
  | _ => false

/-- Tells the cache-line-flush events. -/
def Event.isFlush : Event → Bool
  | Event.clflush _ => true
  | _ => false

/-- Tells the Persistent-Region Query events. -/
def Event.isQuery : Event → Bool
  | Event.query _ _ => true
  | _ => false

/-! ## `CbLog` -/

/-- Number of values of a `uint32_t`. -/
def WORD32 : Nat := 2 ^ 32

/-- The integer fields of `CbLog<T>` (`LogArray` plays no part in `isFull`, `isEmpty`). -/
structure CbLog where
  Size : Nat
  isFilled : Nat
  Start : Nat
  End : Nat
deriving DecidableEq, Repr

namespace CbLog

/-- The fields are `uint32_t` values. -/
def inRange (c : CbLog) : Prop :=
  c.Size < WORD32 ∧ c.isFilled < WORD32 ∧ c.Start < WORD32 ∧ c.End < WORD32

instance (c : CbLog) : Decidable c.inRange := by
  unfold inRange; exact inferInstance

/-- `CbLog::isFull()`: `(End + 1) % Size == Start` in `uint32_t` arithmetic. The remainder
by a zero `Size` is undefined (no value). -/
def isFull (c : CbLog) : Option Bool :=
  if c.Size = 0 then none
  else some (decide (((c.End + 1) % WORD32) % c.Size = c.Start))

/-- `CbLog::isEmpty()`: `Start == End`. -/
def isEmpty (c : CbLog) : Bool := decide (c.Start = c.End)

end CbLog

/-- The two moves of a circular buffer. -/
inductive CbOp where
  | append : CbOp
  | retire : CbOp
deriving DecidableEq, Repr

namespace CbLog

/-- Modelled from the spec: the code that advances `End` is not part of the sources at
hand; an append is `End := (End+1) mod Size`, allowed when the buffer is not full. -/
def append (c : CbLog) : Option CbLog :=
  if c.isFull = some false then some { c with End := ((c.End + 1) % WORD32) % c.Size }
  else none

/-- Modelled from the spec: the code that advances `Start` is not part of the sources at
hand; a retire is `Start := (Start+1) mod Size`, allowed when the buffer is not empty. -/
def retire (c : CbLog) : Option CbLog :=
  if c.isEmpty = false then some { c with Start := ((c.Start + 1) % WORD32) % c.Size }
  else none

/-- One move. -/
def step (c : CbLog) : CbOp → Option CbLog
  | CbOp.append => c.append
  | CbOp.retire => c.retire

/-- A sequence of moves, left to right; `none` when a move is not allowed. -/
def run (c : CbLog) : List CbOp → Option CbLog
  | [] => some c
  | op :: ops => (c.step op).bind (fun c1 => run c1 ops)

end CbLog

/-- The state of a circular buffer with `n` live entries: `End` is `n` slots after
`Start`, counted around the ring. -/
def CbLog.holds (c : CbLog) (n : Nat) : Prop :=
  0 < c.Size ∧ c.Size < 2 ^ 32 ∧ c.Start < c.Size ∧ c.End < c.Size ∧ n < c.Size ∧
    (c.Start + n = c.End ∨ c.Start + n = c.End + c.Size)

/-- Number of live entries after a sequence of moves: appends minus retires. -/
def liveEntries (ops : List CbOp) : Int :=
  (ops.count CbOp.append : Int) - (ops.count CbOp.retire : Int)

/-! ## The store loop of `NvmInstrumenter::performNvmInstrumentation` -/

/-- The LLVM types of a stored value, as far as the pass tells them apart;
`other` stands for vectors and aggregates. -/
inductive LType where
  | integer : Nat → LType
  | half : LType
  | float : LType
  | double : LType
  | x86_fp80 : LType
  | fp128 : LType
  | ppc_fp128 : LType
  | pointer : LType
  | other : LType
deriving DecidableEq, Repr

/-- The LLVM library function `Type::getPrimitiveSizeInBits()` on the types above
(0 for types without a primitive size). -/
def LType.getPrimitiveSizeInBits : LType → Nat
  | LType.integer bits => bits
  | LType.half => 16
  | LType.float => 32
  | LType.double => 64
  | LType.x86_fp80 => 80
  | LType.fp128 => 128
  | LType.ppc_fp128 => 128
  | LType.pointer => 0
  | LType.other => 0

/-- The functions the pass declares and calls, named as the fields of `NvmInstrumenter`. -/
inductive FuncEntry where
  | AcquireFuncEntry
  | ReleaseFuncEntry
  | StoreFuncEntry
  | PsyncAcqFuncEntry
  | MemCpyFuncEntry
  | MemMoveFuncEntry
  | MemSetFuncEntry
  | StrCpyFuncEntry
  | StrCatFuncEntry
  | StrLenFuncEntry
  | BarrierFuncEntry
  | AsyncDataFlushEntry
  | AsyncMemOpDataFlushEntry
deriving DecidableEq, Repr

/-- The symbol each `initialize...` routine binds its entry to. -/
def FuncEntry.symbol : FuncEntry → String
  | FuncEntry.AcquireFuncEntry => "nvm_acquire"
  | FuncEntry.ReleaseFuncEntry => "nvm_release"
  | FuncEntry.StoreFuncEntry => "nvm_store"
  | FuncEntry.PsyncAcqFuncEntry => "nvm_psync_acq"
  | FuncEntry.MemCpyFuncEntry => "nvm_memcpy"
  | FuncEntry.MemMoveFuncEntry => "nvm_memmove"
  | FuncEntry.MemSetFuncEntry => "nvm_memset"
  | FuncEntry.StrCpyFuncEntry => "nvm_strcpy"
  | FuncEntry.StrCatFuncEntry => "nvm_strcat"
  | FuncEntry.StrLenFuncEntry => "nvm_strlen"
  | FuncEntry.BarrierFuncEntry => "nvm_barrier"
  | FuncEntry.AsyncDataFlushEntry => "AsyncDataFlush"
  | FuncEntry.AsyncMemOpDataFlushEntry => "AsyncMemOpDataFlush"

/-- IR values the store loop handles: an operand of the instrumented function
(`isConstant` for a global address), an `i64` constant, and what the builder calls
`CreatePointerCast`, `CreatePtrToInt`, `BinaryOperator::Create(Add, ..)` and
`CreateIntToPtr` make of them. -/
inductive Val where
  | operand : (id : Nat) → (isConstant : Bool) → Val
  | constInt : Nat → Val
  | pointerCast : Val → Val
  | ptrToInt : Val → Val
  | add : Val → Val → Val
  | intToPtr : Val → Val
deriving DecidableEq, Repr

/-- The LLVM test `isa<Constant>`: the builder folds a cast of a constant to a constant
expression; an `add` made by `BinaryOperator::Create` is always an instruction. -/
def Val.isConstant : Val → Bool
  | Val.operand _ c => c
  | Val.constInt _ => true
  | Val.pointerCast v => v.isConstant
  | Val.ptrToInt v => v.isConstant
  | Val.add _ _ => false
  | Val.intToPtr v => v.isConstant

/-- The value an IR value has at run time, for the values `env` of the operands;
`i64` addition wraps. -/
def Val.eval (env : Nat → Nat) : Val → Nat
  | Val.operand id _ => env id % WORD
  | Val.constInt n => n % WORD
  | Val.pointerCast v => v.eval env
  | Val.ptrToInt v => v.eval env
  | Val.add v w => wadd (v.eval env) (w.eval env)
  | Val.intToPtr v => v.eval env

/-- A store instruction: the type of the value operand, the pointer operand, and whether
the type of the pointer operand is already `i8*`. -/
structure StoreInst where
  valTy : LType
  addr : Val
  addrIsInt8Ptr : Bool
deriving DecidableEq, Repr

/-- What `CallInst::getCalledFunction()` returns for a direct call: the name of the
function and whether it is a declaration without a body. -/
structure CalledFunction where
  name : String
  isDeclaration : Bool
deriving DecidableEq, Repr

/-- A call instruction of the function being instrumented: the called function (`none`
for an indirect call), the argument operands, and whether the type of operand 0 is
already `i8*`. -/
structure CallInst where
  calledFunction : Option CalledFunction
  args : List Val
  arg0IsInt8Ptr : Bool
deriving DecidableEq, Repr

/-- The instructions of an instrumented block: the original store, a call of one of the
declared functions, or an instruction the builder made (a cast or the `add_word`);
an original call, any other original instruction, and a call of a declared function
whose result is a value (`hookValue f args r`: the result is the operand `r`). -/
inductive Instr where
  | store : StoreInst → Instr
  | hook : FuncEntry → List Val → Instr
  | compute : Val → Instr
  | call : CallInst → Instr
  | other : Nat → Instr
  | hookValue : FuncEntry → List Val → Nat → Instr
deriving DecidableEq, Repr

/-- Lines 459-471: the width `sz` in bits of the stored value; `none` is `assert(0)`. -/
def storedSize (ty : LType) : Option Nat :=
  match ty with
  | LType.integer _ => some ty.getPrimitiveSizeInBits
  | LType.float => some ty.getPrimitiveSizeInBits
  | LType.double => some ty.getPrimitiveSizeInBits
  | LType.x86_fp80 => some ty.getPrimitiveSizeInBits
  | LType.fp128 => some ty.getPrimitiveSizeInBits
  | LType.pointer => some 64
  | _ => none

/-- Lines 473-479: the pair `(sz, extra_sz)`; `none` when `assert(sz <= 128)` or
`assert(!(sz % 8))` fails. -/
def splitSize (sz : Nat) : Option (Nat × Nat) :=
  if sz > 64 then
    if sz ≤ 128 then
      if sz % 8 = 0 then some (64, sz - 64) else none
    else none
  else some (sz, 0)

/-- The instruction the builder made for a value, to be inserted by hand when it is one. -/
def insertIfInstruction (v : Val) : List Instr :=
  if v.isConstant then [] else [Instr.compute v]

/-- The first argument of the hooks of a store: `Arg1 ? Arg1 : Addr`. -/
def StoreInst.hookAddr (s : StoreInst) : Val :=
  if s.addrIsInt8Ptr then s.addr else Val.pointerCast s.addr

/-- The address of the second half of a wide store: `inttoptr (ptrtoint Addr + 8)`. -/
def StoreInst.extraAddr (s : StoreInst) : Val :=
  Val.intToPtr (Val.add (Val.ptrToInt s.addr) (Val.constInt 8))

/-- One round of the `Stores` loop of `performNvmInstrumentation` (lines 452-536): the
instructions that stand in the place of the store afterwards, in order. `USE_TABLE_FLUSH`
tells whether the environment variable of that name is set. `none`: an assertion failed. -/
def instrumentStore (USE_TABLE_FLUSH : Bool) (s : StoreInst) : Option (List Instr) :=
  match storedSize s.valTy with
  | none => none
  | some sz0 =>
    match splitSize sz0 with
    | none => none
    | some (sz, extra_sz) =>
      let cast := if s.addrIsInt8Ptr then [] else insertIfInstruction (Val.pointerCast s.addr)
      let first := cast ++ [Instr.hook FuncEntry.StoreFuncEntry [s.hookAddr, Val.constInt sz]]
      let second :=
        if extra_sz = 0 then []
        else
          insertIfInstruction (Val.ptrToInt s.addr)
            ++ [Instr.compute (Val.add (Val.ptrToInt s.addr) (Val.constInt 8))]
            ++ insertIfInstruction s.extraAddr
            ++ [Instr.hook FuncEntry.StoreFuncEntry [s.extraAddr, Val.constInt extra_sz]]
      let flush :=
        if USE_TABLE_FLUSH then Instr.hook FuncEntry.AsyncDataFlushEntry [s.hookAddr]
        else Instr.hook FuncEntry.BarrierFuncEntry [s.hookAddr]
      some (first ++ second ++ [Instr.store s] ++ [flush])

/-- The argument lists of the `nvm_store` calls of an instruction sequence, in order. -/
def storeHookArgs : List Instr → List (List Val)
  | [] => []
  | Instr.hook FuncEntry.StoreFuncEntry args :: rest => args :: storeHookArgs rest
  | _ :: rest => storeHookArgs rest

/-- The run-time values of the arguments of the `nvm_store` calls of a sequence. -/
def storeHookValues (env : Nat → Nat) (seq : List Instr) : List (List Nat) :=
  (storeHookArgs seq).map (fun args => args.map (Val.eval env))

/-! ## Classification of calls: `getCallOperationType` -/

/-- The enumeration `NvmInstrumenter::CallOpType`. -/
inductive CallOpType where
  | None
  | Acquire
  | Release
  | MemCpy
  | MemMove
  | MemSet
  | StrCpy
  | StrNCpy
  | StrCat
  | StrNCat
deriving DecidableEq, Repr

/-- Line 110. -/
def LockAcquireName : String := "pthread_mutex_lock"
/-- Line 111. -/
def LockReleaseName : String := "pthread_mutex_unlock"
/-- Line 112. -/
def MemCpy32Name : String := "llvm.memcpy.p0i8.p0i8.i32"
/-- Line 113. -/
def MemCpy64Name : String := "llvm.memcpy.p0i8.p0i8.i64"
/-- Line 114. -/
def MemMove32Name : String := "llvm.memmove.p0i8.p0i8.i32"
/-- Line 115. -/
def MemMove64Name : String := "llvm.memmove.p0i8.p0i8.i64"
/-- Line 116. -/
def MemSet32Name : String := "llvm.memset.p0i8.i32"
/-- Line 117. -/
def MemSet64Name : String := "llvm.memset.p0i8.i64"
/-- Line 118. -/
def StrCpyName : String := "strcpy"
/-- Line 119. -/
def StrNCpyName : String := "strncpy"
/-- Line 120. -/
def StrCatName : String := "strcat"
/-- Line 121. -/
def StrNCatName : String := "strncat"

/-- `NvmInstrumenter::getCallOperationType` (lines 196-226), comparison by comparison. -/
def getCallOperationType (I : CallInst) : CallOpType :=
  match I.calledFunction with
  | none => CallOpType.None
  | some CalledFunction =>
    if !CalledFunction.isDeclaration then CallOpType.None
    else if CalledFunction.name = LockAcquireName then CallOpType.Acquire
    else if CalledFunction.name = LockReleaseName then CallOpType.Release
    else if CalledFunction.name = MemCpy32Name ∨ CalledFunction.name = MemCpy64Name then
      CallOpType.MemCpy
    else if CalledFunction.name = MemMove32Name ∨ CalledFunction.name = MemMove64Name then
      CallOpType.MemMove
    else if CalledFunction.name = StrCpyName then CallOpType.StrCpy
    else if CalledFunction.name = StrNCpyName then CallOpType.StrNCpy
    else if CalledFunction.name = StrCatName then CallOpType.StrCat
    else if CalledFunction.name = StrNCatName then CallOpType.StrNCat
    else CallOpType.None

/-! ## The loops of `performNvmInstrumentation` over calls -/

/-- The flush call put after a bulk or string operation: `AsyncMemOpDataFlush` when
`USE_TABLE_FLUSH` is set, `nvm_psync_acq` otherwise. -/
def memOpFlushEntry (USE_TABLE_FLUSH : Bool) : FuncEntry :=
  if USE_TABLE_FLUSH then FuncEntry.AsyncMemOpDataFlushEntry else FuncEntry.PsyncAcqFuncEntry

/-- The argument of the lock hooks: `Arg1 ? Arg1 : OP` for the operand `OP`. -/
def CallInst.hookArg (c : CallInst) (OP : Val) : Val :=
  if c.arg0IsInt8Ptr then OP else Val.pointerCast OP

/-- The cast of the lock operand, when the builder made an instruction for it. -/
def CallInst.castInstr (c : CallInst) (OP : Val) : List Instr :=
  if c.arg0IsInt8Ptr then [] else insertIfInstruction (Val.pointerCast OP)

/-- One round of the `Acquires` loop (lines 411-428): `NI->insertAfter(CallInstruction)`,
then the cast, when it is an instruction, `insertBefore(NI)`. `none`: the assertion on
the number of arguments failed. -/
def instrumentAcquire (c : CallInst) : Option (List Instr) :=
  match c.args with
  | [OP] =>
    some ([Instr.call c] ++ c.castInstr OP
      ++ [Instr.hook FuncEntry.AcquireFuncEntry [c.hookArg OP]])
  | _ => none

/-- One round of the `Releases` loop (lines 432-448): the hook is created before the
call, then the cast, when it is an instruction, `insertBefore(NI)`. -/
def instrumentRelease (c : CallInst) : Option (List Instr) :=
  match c.args with
  | [OP] =>
    some (c.castInstr OP ++ [Instr.hook FuncEntry.ReleaseFuncEntry [c.hookArg OP]]
      ++ [Instr.call c])
  | _ => none

/-- `NvmInstrumenter::addMemInstrumentation` (lines 605-626): the hook with operands 0
and 2 before the call, the flush call with the same arguments after it. `none`: the
assertion on the five arguments failed. -/
def addMemInstrumentation (USE_TABLE_FLUSH : Bool) (c : CallInst) (FuncEntry : FuncEntry) :
    Option (List Instr) :=
  match c.args with
  | [a0, _, a2, _, _] =>
    some ([Instr.hook FuncEntry [a0, a2]] ++ [Instr.call c]
      ++ [Instr.hook (memOpFlushEntry USE_TABLE_FLUSH) [a0, a2]])
  | _ => none

/-- One round of the `StrCpys` loop (lines 549-575). For `strcpy` the size is the result
`CI` of a call of `nvm_strlen` on operand 0 put before the call; for `strncpy` it is
operand 2. `none`: an operand asked for does not exist. -/
def instrumentStrCpy (USE_TABLE_FLUSH : Bool) (CI : Nat) (c : CallInst) :
    Option (List Instr) :=
  if getCallOperationType c = CallOpType.StrCpy then
    match c.args with
    | a0 :: _ =>
      some ([Instr.hookValue FuncEntry.StrLenFuncEntry [a0] CI,
          Instr.hook FuncEntry.StrCpyFuncEntry [a0, Val.operand CI false],
          Instr.call c,
          Instr.hook (memOpFlushEntry USE_TABLE_FLUSH) [a0, Val.operand CI false]])
    | [] => none
  else
    match c.args with
    | a0 :: _ :: a2 :: _ =>
      some ([Instr.hook FuncEntry.StrCpyFuncEntry [a0, a2],
          Instr.call c,
          Instr.hook (memOpFlushEntry USE_TABLE_FLUSH) [a0, a2]])
    | _ => none

/-- One round of the `StrCats` loop (lines 579-598): the call `DSLI` of `nvm_strlen` on
operand 0 and the `nvm_strcat` hook are created before the call, in this order, the
flush call is inserted after it. `none`: operand 0 does not exist. -/
def instrumentStrCat (USE_TABLE_FLUSH : Bool) (DSLI : Nat) (c : CallInst) :
    Option (List Instr) :=
  match c.args with
  | a0 :: _ =>
    some ([Instr.hookValue FuncEntry.StrLenFuncEntry [a0] DSLI,
        Instr.hook FuncEntry.StrCatFuncEntry [a0, Val.operand DSLI false],
        Instr.call c,
        Instr.hook (memOpFlushEntry USE_TABLE_FLUSH) [a0, Val.operand DSLI false]])
  | [] => none

/-! ## `runOnFunction` -/

/-- An instruction of the function before the pass: a store (with the answer of
`isa<AllocaInst>` for its pointer operand), a call, or anything else. -/
inductive SrcInstr where
  | store : StoreInst → (addrIsAlloca : Bool) → SrcInstr
  | call : CallInst → SrcInstr
  | other : Nat → SrcInstr
deriving DecidableEq, Repr

/-- `NvmInstrumenter::shouldInstrumentStore` (lines 189-194), on the answer of
`isa<AllocaInst>(Addr)`. -/
def shouldInstrumentStore (addrIsAlloca : Bool) : Bool :=
  if addrIsAlloca then false else true

/-- What the pass makes of one instruction: the classification of `runOnFunction`
(lines 144-178) followed by the round of the loop of `performNvmInstrumentation` that
the instruction was queued for. `newValue` names the value of a call the pass creates
there. An instruction that is not queued stays as it is. -/
def expandInstr (USE_TABLE_FLUSH : Bool) (newValue : Nat) : SrcInstr → Option (List Instr)
  | SrcInstr.store s addrIsAlloca =>
    if shouldInstrumentStore addrIsAlloca then instrumentStore USE_TABLE_FLUSH s
    else some [Instr.store s]
  | SrcInstr.call c =>
    match getCallOperationType c with
    | CallOpType.Acquire => instrumentAcquire c
    | CallOpType.Release => instrumentRelease c
    | CallOpType.MemCpy => addMemInstrumentation USE_TABLE_FLUSH c FuncEntry.MemCpyFuncEntry
    | CallOpType.MemMove => addMemInstrumentation USE_TABLE_FLUSH c FuncEntry.MemMoveFuncEntry
    | CallOpType.MemSet => addMemInstrumentation USE_TABLE_FLUSH c FuncEntry.MemSetFuncEntry
    | CallOpType.StrCpy => instrumentStrCpy USE_TABLE_FLUSH newValue c
    | CallOpType.StrNCpy => instrumentStrCpy USE_TABLE_FLUSH newValue c
    | CallOpType.StrCat => instrumentStrCat USE_TABLE_FLUSH newValue c
    | CallOpType.StrNCat => instrumentStrCat USE_TABLE_FLUSH newValue c
    | CallOpType.None => some [Instr.call c]
  | SrcInstr.other id => some [Instr.other id]

/-- `NvmInstrumenter::performNvmInstrumentation` on the instructions of a function, in
program order, the first of them being number `i`. Every loop of the routine inserts
next to the instruction of its round only (`insertBefore`, `insertAfter`), so the
function afterwards is the original one with each instruction replaced by what its round
made of it. `fresh j` names the value created at instruction `j`. `none`: an assertion
failed somewhere. -/
def performNvmInstrumentation (USE_TABLE_FLUSH : Bool) (fresh : Nat → Nat) :
    Nat → List SrcInstr → Option (List Instr)
  | _, [] => some []
  | i, I :: rest =>
    match expandInstr USE_TABLE_FLUSH (fresh i) I,
      performNvmInstrumentation USE_TABLE_FLUSH fresh (i + 1) rest with
    | some e, some r => some (e ++ r)
    | _, _ => none

/-- `NvmInstrumenter::runOnFunction` on the instructions of `F`. -/
def runOnFunction (USE_TABLE_FLUSH : Bool) (fresh : Nat → Nat) (F : List SrcInstr) :
    Option (List Instr) :=
  performNvmInstrumentation USE_TABLE_FLUSH fresh 0 F

/-- The events of a run without the Persistent-Region Queries: fences and flushes. -/
def fencesAndFlushes (r : FlushRun) : List Event :=
  r.events.filter (fun e => !e.isQuery)

/-! # Properties -/

/-! ## Build configuration -/

theorem failsAtEntry_eq_false (cfg : BuildCfg) (h : cfg.forceFail = false) :
    cfg.failsAtEntry = false := by
  simp [BuildCfg.failsAtEntry, h]

/-! ## Arithmetic of the line mask -/

theorem mask_eq_mul (k : Nat) (hk : k ≤ 64) :
    get_cache_line_mask (2 ^ k) = 2 ^ k * (2 ^ (64 - k) - 1) := by
  have h1 : 2 ^ k * 2 ^ (64 - k) = 2 ^ 64 := by
    rw [← pow_add]; congr 1; omega
  have h2 : 0 < 2 ^ k := Nat.pow_pos (by norm_num)
  have h3 : 0 < 2 ^ (64 - k) := Nat.pow_pos (by norm_num)
  unfold get_cache_line_mask WORD
  rw [Nat.mul_sub, ← h1, Nat.mul_one]
  omega

theorem land_mask (k : Nat) (hk : k ≤ 64) (x : Nat) (hx : x < 2 ^ 64) :
    x &&& get_cache_line_mask (2 ^ k) = 2 ^ k * (x / 2 ^ k) := by
  rw [mask_eq_mul k hk]
  apply Nat.eq_of_testBit_eq
  intro i
  rw [Nat.testBit_and, Nat.testBit_mul_pow_two, Nat.testBit_mul_pow_two,
    Nat.testBit_two_pow_sub_one, ← Nat.shiftRight_eq_div_pow, Nat.testBit_shiftRight]
  by_cases hik : k ≤ i
  · have e : k + (i - k) = i := by omega
    rw [e]
    by_cases hi : i < 64
    · have : i - k < 64 - k := by omega
      simp [hik, this]
    · have hx2 : x < 2 ^ i :=
        lt_of_lt_of_le hx (Nat.pow_le_pow_right (by norm_num) (by omega))
      simp [Nat.testBit_lt_two_pow hx2]
  · simp [hik]

/-! ## Sets: membership, extensionality, size -/

theorem SetOfInts.mem_def (s : SetOfInts) (x : Nat) : x ∈ s ↔ x ∈ s.elems := Iff.rfl

theorem SetOfInts.mem_insert (s : SetOfInts) (a x : Nat) :
    x ∈ s.insert a ↔ x = a ∨ x ∈ s :=
  mem_insertKey a x s.elems

theorem SetOfInts.not_mem_empty (x : Nat) : ¬ x ∈ SetOfInts.empty := by
  simp [SetOfInts.mem_def, SetOfInts.empty]

theorem SetOfInts.nodup (s : SetOfInts) : s.elems.Nodup :=
  List.Sorted.nodup s.sorted

theorem SetOfInts.ext (s t : SetOfInts) (h : ∀ x, x ∈ s ↔ x ∈ t) : s = t := by
  have hp : s.elems.Perm t.elems :=
    (List.perm_ext_iff_of_nodup s.nodup t.nodup).2 h
  have he : s.elems = t.elems := List.eq_of_perm_of_sorted hp s.sorted t.sorted
  cases s; cases t; cases he; rfl

theorem SetOfInts.size_eq_card (s : SetOfInts) : s.size = s.elems.toFinset.card :=
  (List.toFinset_card_of_nodup s.nodup).symm

/-! ## The loop of `collectCacheLines` when nothing wraps -/

theorem collectLoop_done (L last : Nat) (hL : 0 < L) (hlast : last + L < 2 ^ 64) :
    ∀ (n fuel : Nat) (set : SetOfInts) (line : Nat), line + n * L = last → n < fuel →
      ∃ r, collectLoop L last fuel set line = Outcome.done r ∧
        ∀ x, x ∈ r ↔ (x ∈ set ∨ ∃ i, i ≤ n ∧ x = line + i * L) := by
  intro n
  induction n with
  | zero =>
    intro fuel set line hline hfuel
    obtain ⟨f, rfl⟩ : ∃ f, fuel = f + 1 := ⟨fuel - 1, by omega⟩
    simp only [Nat.zero_mul, Nat.add_zero] at hline
    subst hline
    have h1 : wadd line L = line + L := by
      unfold wadd WORD; exact Nat.mod_eq_of_lt hlast
    have h2 : wadd line 1 = line + 1 := by
      unfold wadd WORD; exact Nat.mod_eq_of_lt (by omega)
    refine ⟨set.insert line, ?_, ?_⟩
    · simp only [collectLoop, h1, h2]
      rw [if_neg (by omega)]
    · intro x
      rw [SetOfInts.mem_insert]
      constructor
      · rintro (h | h)
        · exact Or.inr ⟨0, le_refl 0, by simpa using h⟩
        · exact Or.inl h
      · rintro (h | ⟨i, hi, h⟩)
        · exact Or.inr h
        · left
          have : i = 0 := by omega
          subst this; simpa using h
  | succ m ih =>
    intro fuel set line hline hfuel
    obtain ⟨f, rfl⟩ : ∃ f, fuel = f + 1 := ⟨fuel - 1, by omega⟩
    have hle : line + L ≤ last := by
      have : line + L + m * L = last := by rw [← hline, Nat.succ_mul]; omega
      omega
    have h1 : wadd line L = line + L := by
      unfold wadd WORD; exact Nat.mod_eq_of_lt (by omega)
    have h2 : wadd last 1 = last + 1 := by
      unfold wadd WORD; exact Nat.mod_eq_of_lt (by omega)
    have hrec : line + L + m * L = last := by rw [← hline, Nat.succ_mul]; omega
    obtain ⟨r, hr, hmem⟩ := ih f (set.insert line) (line + L) hrec (by omega)
    refine ⟨r, ?_, ?_⟩
    · simp only [collectLoop, h1, h2]
      rw [if_pos (by omega)]
      exact hr
    · intro x
      rw [hmem, SetOfInts.mem_insert]
      constructor
      · rintro ((h | h) | ⟨i, hi, h⟩)
        · exact Or.inr ⟨0, Nat.zero_le _, by simpa using h⟩
        · exact Or.inl h
        · exact Or.inr ⟨i + 1, by omega, by rw [h, Nat.succ_mul]; omega⟩
      · rintro (h | ⟨i, hi, h⟩)
        · exact Or.inl (Or.inr h)
        · rcases Nat.eq_zero_or_pos i with h0 | hpos
          · subst h0
            exact Or.inl (Or.inl (by simpa using h))
          · refine Or.inr ⟨i - 1, by omega, ?_⟩
            obtain ⟨j, rfl⟩ : ∃ j, i = j + 1 := ⟨i - 1, by omega⟩
            rw [h, Nat.succ_mul]; simp; omega

theorem wadd_of_lt (x y : Nat) (h : x + y < 2 ^ 64) : wadd x y = x + y := by
  unfold wadd WORD; exact Nat.mod_eq_of_lt h

theorem wsub_one_of_pos (x : Nat) (h0 : 0 < x) (h : x < 2 ^ 64) : wsub x 1 = x - 1 := by
  unfold wsub WORD
  have e1 : x % 2 ^ 64 = x := Nat.mod_eq_of_lt h
  have e2 : 1 % 2 ^ 64 = 1 := by norm_num
  rw [e1, e2]
  have e3 : x + (2 ^ 64 - 1) = (x - 1) + 2 ^ 64 := by omega
  rw [e3, Nat.add_mod_right]
  exact Nat.mod_eq_of_lt (by omega)

/-- When the byte range and one more line fit below `2 ^ 64`, `collectCacheLines` returns,
and the returned set is the old set together with the multiples `2 ^ k * q` of the line
size for `q` from `addr / 2 ^ k` to `(addr + sz - 1) / 2 ^ k`. -/
theorem collectCacheLines_lines (cfg : BuildCfg) (k fuel : Nat) (set : SetOfInts)
    (a s : Nat) (hcfg : cfg.forceFail = false) (hk : k < 64) (hs : 0 < s)
    (hfit : a + s + 2 ^ k ≤ 2 ^ 64) (hfuel : (a + s - 1) / 2 ^ k - a / 2 ^ k < fuel) :
    ∃ r, collectCacheLines cfg (2 ^ k) fuel set a s = Outcome.done r ∧
      ∀ x, x ∈ r ↔ (x ∈ set ∨
        ∃ q, a / 2 ^ k ≤ q ∧ q ≤ (a + s - 1) / 2 ^ k ∧ x = 2 ^ k * q) := by
  have hL : 0 < 2 ^ k := Nat.pow_pos (by norm_num)
  have hq : a / 2 ^ k ≤ (a + s - 1) / 2 ^ k := Nat.div_le_div_right (by omega)
  have hmul : 2 ^ k * (a / 2 ^ k) ≤ 2 ^ k * ((a + s - 1) / 2 ^ k) :=
    Nat.mul_le_mul_left _ hq
  have hb : 2 ^ k * ((a + s - 1) / 2 ^ k) ≤ a + s - 1 := Nat.mul_div_le _ _
  have e1 : wadd a s = a + s := wadd_of_lt a s (by omega)
  have e2 : wsub (a + s) 1 = a + s - 1 := wsub_one_of_pos (a + s) (by omega) (by omega)
  have e3 := land_mask k (le_of_lt hk) a (by omega)
  have e4 := land_mask k (le_of_lt hk) (a + s - 1) (by omega)
  have hline : 2 ^ k * (a / 2 ^ k) + ((a + s - 1) / 2 ^ k - a / 2 ^ k) * 2 ^ k
      = 2 ^ k * ((a + s - 1) / 2 ^ k) := by
    rw [Nat.sub_mul, Nat.mul_comm ((a + s - 1) / 2 ^ k), Nat.mul_comm (a / 2 ^ k)]
    omega
  obtain ⟨r, hr, hmem⟩ := collectLoop_done (2 ^ k) (2 ^ k * ((a + s - 1) / 2 ^ k)) hL
    (by omega) ((a + s - 1) / 2 ^ k - a / 2 ^ k) fuel set (2 ^ k * (a / 2 ^ k)) hline hfuel
  refine ⟨r, ?_, ?_⟩
  · unfold collectCacheLines
    rw [failsAtEntry_eq_false cfg hcfg]
    simp only [Bool.false_eq_true, if_false]
    rw [if_neg (by omega), e1, e2, e3, e4]
    exact hr
  · intro x
    rw [hmem]
    constructor
    · rintro (h | ⟨i, hi, h⟩)
      · exact Or.inl h
      · refine Or.inr ⟨a / 2 ^ k + i, by omega, by omega, ?_⟩
        rw [h, Nat.mul_add, Nat.mul_comm i]
    · rintro (h | ⟨q, h1, h2, h⟩)
      · exact Or.inl h
      · refine Or.inr ⟨q - a / 2 ^ k, by omega, ?_⟩
        rw [h, Nat.sub_mul, Nat.mul_comm q, Nat.mul_comm (a / 2 ^ k)]
        have : 2 ^ k * (a / 2 ^ k) ≤ 2 ^ k * q := Nat.mul_le_mul_left _ h1
        omega

theorem ceil_lines_eq (L a s : Nat) (hL : 0 < L) (hs : 0 < s) :
    (a % L + s + L - 1) / L = (a + s - 1) / L - a / L + 1 := by
  have h1 : a + s - 1 = (a % L + s - 1) + L * (a / L) := by
    have := Nat.mod_add_div a L
    omega
  have h2 : (a + s - 1) / L = (a % L + s - 1) / L + a / L := by
    rw [h1, Nat.add_mul_div_left _ _ hL]
  have h3 : a % L + s + L - 1 = (a % L + s - 1) + L := by omega
  have h4 : (a % L + s + L - 1) / L = (a % L + s - 1) / L + 1 := by
    rw [h3, Nat.add_div_right _ hL]
  rw [h4, h2, Nat.add_sub_cancel]

theorem size_of_lines (r : SetOfInts) (L lo hi : Nat) (hL : 0 < L) (hle : lo ≤ hi)
    (hmem : ∀ x, x ∈ r ↔ ∃ q, lo ≤ q ∧ q ≤ hi ∧ x = L * q) :
    r.size = hi - lo + 1 := by
  have himg : r.elems.toFinset = (Finset.Icc lo hi).image (fun q => L * q) := by
    ext x
    rw [List.mem_toFinset, Finset.mem_image]
    constructor
    · intro hx
      obtain ⟨q, h1, h2, h3⟩ := (hmem x).1 hx
      exact ⟨q, Finset.mem_Icc.2 ⟨h1, h2⟩, h3.symm⟩
    · rintro ⟨q, hq, rfl⟩
      have := Finset.mem_Icc.1 hq
      exact (hmem _).2 ⟨q, this.1, this.2, rfl⟩
  have hinj : Function.Injective (fun q : Nat => L * q) := by
    intro x y hxy
    exact Nat.eq_of_mul_eq_mul_left hL hxy
  rw [SetOfInts.size_eq_card, himg, Finset.card_image_of_injective _ hinj, Nat.card_Icc]
  omega

/-- C1 (amended). In a build without `_FORCE_FAIL`, for a line size `L = 2 ^ k`, every
address `a` and size `s > 0` with `a + s + L ≤ 2 ^ 64` (neither the last byte address nor
the stepped line address wraps), `collectCacheLines` on the empty set returns once the
step budget covers the lines, and the returned set has exactly
`ceil ((a mod L + s) / L)` elements, all distinct. -/
theorem collectCacheLines_count (cfg : BuildCfg) (k fuel a s : Nat)
    (hcfg : cfg.forceFail = false) (hk : k < 64) (hs : 0 < s)
    (hfit : a + s + 2 ^ k ≤ 2 ^ 64)
    (hfuel : (a % 2 ^ k + s + 2 ^ k - 1) / 2 ^ k ≤ fuel) :
    ∃ r, collectCacheLines cfg (2 ^ k) fuel SetOfInts.empty a s = Outcome.done r ∧
      r.size = (a % 2 ^ k + s + 2 ^ k - 1) / 2 ^ k ∧ r.elems.Nodup := by
  have hL : 0 < 2 ^ k := Nat.pow_pos (by norm_num)
  have hc := ceil_lines_eq (2 ^ k) a s hL hs
  have hq : a / 2 ^ k ≤ (a + s - 1) / 2 ^ k := Nat.div_le_div_right (by omega)
  obtain ⟨r, hr, hmem⟩ := collectCacheLines_lines cfg k fuel SetOfInts.empty a s hcfg hk hs
    hfit (by omega)
  refine ⟨r, hr, ?_, r.nodup⟩
  rw [hc]
  apply size_of_lines r (2 ^ k) _ _ hL hq
  intro x
  rw [hmem]
  constructor
  · rintro (h | h)
    · exact absurd h (SetOfInts.not_mem_empty x)
    · exact h
  · intro h
    exact Or.inr h

theorem collectCacheLines_count_witness :
    ∃ r, collectCacheLines ⟨false, false⟩ (2 ^ 6) 3 SetOfInts.empty 100 100 = Outcome.done r ∧
      r.size = (100 % 2 ^ 6 + 100 + 2 ^ 6 - 1) / 2 ^ 6 ∧ r.elems.Nodup :=
  collectCacheLines_count ⟨false, false⟩ 6 3 100 100 rfl (by decide) (by decide)
    (by decide) (by decide)

theorem collectLoop_top_line_runs_on :
    ∀ (fuel : Nat) (set : SetOfInts) (line : Nat), line % 64 = 0 →
      collectLoop 64 (2 ^ 64 - 64) fuel set line = Outcome.outOfFuel := by
  intro fuel
  induction fuel with
  | zero => intro set line _; rfl
  | succ f ih =>
    intro set line hline
    have h2 : wadd (2 ^ 64 - 64) 1 = 2 ^ 64 - 63 := by
      unfold wadd WORD; norm_num
    have h3 : wadd line 64 < 2 ^ 64 - 63 := by
      unfold wadd WORD
      have : (line + 64) % 2 ^ 64 < 2 ^ 64 := Nat.mod_lt _ (by norm_num)
      omega
    have h4 : wadd line 64 % 64 = 0 := by
      unfold wadd WORD; omega
    simp only [collectLoop]
    rw [h2, if_pos h3]
    exact ih _ _ h4

/-- C1 (counterexample). With line size 64, the range of the 64 bytes at
`2 ^ 64 - 64` (the top line of the address space) has `ceil ((0 + 64) / 64) = 1` line, but
no step budget lets `collectCacheLines` return on it: the stepped line address wraps to 0
and stays below `last_line_addr + 1` for ever. -/
theorem collectCacheLines_count_fails_at_top_line :
    ¬ ∃ fuel r, collectCacheLines ⟨false, false⟩ (2 ^ 6) fuel SetOfInts.empty
        (2 ^ 64 - 64) 64 = Outcome.done r ∧
      r.size = ((2 ^ 64 - 64) % 2 ^ 6 + 64 + 2 ^ 6 - 1) / 2 ^ 6 := by
  rintro ⟨fuel, r, hr, -⟩
  have h : collectCacheLines ⟨false, false⟩ (2 ^ 6) fuel SetOfInts.empty (2 ^ 64 - 64) 64
      = Outcome.outOfFuel := by
    unfold collectCacheLines
    rw [failsAtEntry_eq_false _ rfl]
    simp only [Bool.false_eq_true, if_false]
    rw [if_neg (by norm_num)]
    have e1 : (wsub (wadd (2 ^ 64 - 64) 64) 1) &&& get_cache_line_mask (2 ^ 6)
        = 2 ^ 64 - 64 := by decide
    have e2 : (2 ^ 64 - 64) &&& get_cache_line_mask (2 ^ 6) = 2 ^ 64 - 64 := by decide
    simp only [e1, e2]
    exact collectLoop_top_line_runs_on fuel _ _ (by norm_num)
  rw [h] at hr
  exact Outcome.noConfusion hr

theorem exists_byte_of_line (L a s q : Nat) (hL : 0 < L) (hs : 0 < s)
    (h1 : a / L ≤ q) (h2 : q ≤ (a + s - 1) / L) :
    ∃ b, a ≤ b ∧ b < a + s ∧ b / L = q := by
  rcases Nat.eq_or_lt_of_le h1 with h | h
  · exact ⟨a, le_refl a, by omega, h⟩
  · refine ⟨L * q, ?_, ?_, Nat.mul_div_cancel_left q hL⟩
    · have h3 : L * (a / L + 1) ≤ L * q := Nat.mul_le_mul_left _ h
      have h4 := Nat.mod_add_div a L
      have h5 := Nat.mod_lt a hL
      rw [Nat.mul_add, Nat.mul_one] at h3
      omega
    · have h3 : L * q ≤ L * ((a + s - 1) / L) := Nat.mul_le_mul_left _ h2
      have h4 : L * ((a + s - 1) / L) ≤ a + s - 1 := Nat.mul_div_le _ _
      omega

/-- C2 (amended). In a build without `_FORCE_FAIL`, for a line size `L = 2 ^ k`, every
address `a` and size `s > 0` with `a + s + L ≤ 2 ^ 64`, `collectCacheLines` on the empty
set returns the set `{ b & mask | a ≤ b < a + s }`: every multiple of `L` from the line of
`a` to the line of the last byte `a + s - 1` is present, each element is a multiple of
`L`, every byte of the range lies in the line of some element, and every element is the
line of some byte of the range. -/
theorem collectCacheLines_covers (cfg : BuildCfg) (k fuel a s : Nat)
    (hcfg : cfg.forceFail = false) (hk : k < 64) (hs : 0 < s)
    (hfit : a + s + 2 ^ k ≤ 2 ^ 64)
    (hfuel : (a % 2 ^ k + s + 2 ^ k - 1) / 2 ^ k ≤ fuel) :
    ∃ r, collectCacheLines cfg (2 ^ k) fuel SetOfInts.empty a s = Outcome.done r ∧
      (∀ x, x ∈ r ↔ ∃ b, a ≤ b ∧ b < a + s ∧ x = b &&& get_cache_line_mask (2 ^ k)) ∧
      (∀ x, a &&& get_cache_line_mask (2 ^ k) ≤ x →
        x ≤ (a + s - 1) &&& get_cache_line_mask (2 ^ k) → 2 ^ k ∣ x → x ∈ r) ∧
      (∀ x, x ∈ r → 2 ^ k ∣ x) ∧
      (∀ b, a ≤ b → b < a + s → ∃ x, x ∈ r ∧ x ≤ b ∧ b < x + 2 ^ k) ∧
      (∀ x, x ∈ r → ∃ b, a ≤ b ∧ b < a + s ∧ x ≤ b ∧ b < x + 2 ^ k) := by
  have hL : 0 < 2 ^ k := Nat.pow_pos (by norm_num)
  have hc := ceil_lines_eq (2 ^ k) a s hL hs
  obtain ⟨r, hr, hmem0⟩ := collectCacheLines_lines cfg k fuel SetOfInts.empty a s hcfg hk hs
    hfit (by omega)
  have hmem : ∀ x, x ∈ r ↔
      ∃ q, a / 2 ^ k ≤ q ∧ q ≤ (a + s - 1) / 2 ^ k ∧ x = 2 ^ k * q := by
    intro x
    rw [hmem0]
    constructor
    · rintro (h | h)
      · exact absurd h (SetOfInts.not_mem_empty x)
      · exact h
    · intro h
      exact Or.inr h
  have hline : ∀ b, a ≤ b → b < a + s →
      b &&& get_cache_line_mask (2 ^ k) = 2 ^ k * (b / 2 ^ k) ∧
        a / 2 ^ k ≤ b / 2 ^ k ∧ b / 2 ^ k ≤ (a + s - 1) / 2 ^ k := by
    intro b hb1 hb2
    exact ⟨land_mask k (le_of_lt hk) b (by omega), Nat.div_le_div_right hb1,
      Nat.div_le_div_right (by omega)⟩
  have hbyte : ∀ b, 2 ^ k * (b / 2 ^ k) ≤ b ∧ b < 2 ^ k * (b / 2 ^ k) + 2 ^ k := by
    intro b
    have h4 := Nat.mod_add_div b (2 ^ k)
    have h5 := Nat.mod_lt b hL
    omega
  refine ⟨r, hr, ?_, ?_, ?_, ?_, ?_⟩
  · intro x
    rw [hmem]
    constructor
    · rintro ⟨q, h1, h2, rfl⟩
      obtain ⟨b, hb1, hb2, hb3⟩ := exists_byte_of_line (2 ^ k) a s q hL hs h1 h2
      exact ⟨b, hb1, hb2, by rw [(hline b hb1 hb2).1, hb3]⟩
    · rintro ⟨b, hb1, hb2, rfl⟩
      obtain ⟨e, h1, h2⟩ := hline b hb1 hb2
      exact ⟨b / 2 ^ k, h1, h2, e⟩
  · intro x hx1 hx2 hdvd
    rw [(hline a (le_refl a) (by omega)).1] at hx1
    rw [(hline (a + s - 1) (by omega) (by omega)).1] at hx2
    obtain ⟨q, rfl⟩ := hdvd
    exact (hmem _).2 ⟨q, Nat.le_of_mul_le_mul_left hx1 hL,
      Nat.le_of_mul_le_mul_left hx2 hL, rfl⟩
  · intro x hx
    obtain ⟨q, -, -, rfl⟩ := (hmem x).1 hx
    exact Dvd.intro q rfl
  · intro b hb1 hb2
    obtain ⟨-, h1, h2⟩ := hline b hb1 hb2
    exact ⟨2 ^ k * (b / 2 ^ k), (hmem _).2 ⟨b / 2 ^ k, h1, h2, rfl⟩, (hbyte b).1, (hbyte b).2⟩
  · intro x hx
    obtain ⟨q, h1, h2, rfl⟩ := (hmem x).1 hx
    obtain ⟨b, hb1, hb2, hb3⟩ := exists_byte_of_line (2 ^ k) a s q hL hs h1 h2
    have := hbyte b
    rw [hb3] at this
    exact ⟨b, hb1, hb2, this.1, this.2⟩

theorem collectCacheLines_covers_witness :
    ∃ r, collectCacheLines ⟨false, false⟩ (2 ^ 6) 3 SetOfInts.empty 100 100 = Outcome.done r ∧
      (∀ x, x ∈ r ↔ ∃ b, 100 ≤ b ∧ b < 100 + 100 ∧ x = b &&& get_cache_line_mask (2 ^ 6)) ∧
      (∀ x, 100 &&& get_cache_line_mask (2 ^ 6) ≤ x →
        x ≤ (100 + 100 - 1) &&& get_cache_line_mask (2 ^ 6) → 2 ^ 6 ∣ x → x ∈ r) ∧
      (∀ x, x ∈ r → 2 ^ 6 ∣ x) ∧
      (∀ b, 100 ≤ b → b < 100 + 100 → ∃ x, x ∈ r ∧ x ≤ b ∧ b < x + 2 ^ 6) ∧
      (∀ x, x ∈ r → ∃ b, 100 ≤ b ∧ b < 100 + 100 ∧ x ≤ b ∧ b < x + 2 ^ 6) :=
  collectCacheLines_covers ⟨false, false⟩ 6 3 100 100 rfl (by decide) (by decide)
    (by decide) (by decide)

/-- C2 (counterexample). With line size 64, address 100 and size `2 ^ 64 - 50`, the last
byte address wraps to 49, whose line 0 lies below the first line 64: whenever
`collectCacheLines` returns, the set is `{64}`, although byte 128 of the range has the
line address `128 & mask = 128`, which is missing. -/
theorem collectCacheLines_covers_fails_on_wrap :
    ¬ ∃ fuel r, collectCacheLines ⟨false, false⟩ (2 ^ 6) fuel SetOfInts.empty
        100 (2 ^ 64 - 50) = Outcome.done r ∧
      ∀ x, x ∈ r ↔
        ∃ b, 100 ≤ b ∧ b < 100 + (2 ^ 64 - 50) ∧ x = b &&& get_cache_line_mask (2 ^ 6) := by
  rintro ⟨fuel, r, hr, hmem⟩
  have h128 : (128 : Nat) ∈ r :=
    (hmem 128).2 ⟨128, by norm_num, by norm_num, by decide⟩
  cases fuel with
  | zero => exact Outcome.noConfusion hr
  | succ f =>
    have h : collectCacheLines ⟨false, false⟩ (2 ^ 6) (f + 1) SetOfInts.empty
        100 (2 ^ 64 - 50) = Outcome.done (SetOfInts.ofList [64]) := by
      unfold collectCacheLines
      rw [failsAtEntry_eq_false _ rfl]
      simp only [Bool.false_eq_true, if_false]
      rw [if_neg (by norm_num)]
      have e1 : (wsub (wadd 100 (2 ^ 64 - 50)) 1) &&& get_cache_line_mask (2 ^ 6) = 0 := by
        decide
      have e2 : 100 &&& get_cache_line_mask (2 ^ 6) = 64 := by decide
      simp only [e1, e2, collectLoop]
      rw [if_neg (by decide)]
      rfl
    rw [h] at hr
    have hr2 : SetOfInts.ofList [64] = r := by
      injection hr
    rw [← hr2] at h128
    exact absurd h128 (by decide)

/-! ## The flush loops -/

theorem flushLoop_completed (g : Bool) (q : Nat → Nat → Bool) (l : List Nat)
    (hnz : ∀ x, x ∈ l → x ≠ 0) : (flushLoop g q l).completed = true := by
  induction l with
  | nil => rfl
  | cons c rest ih =>
    have hc : c ≠ 0 := hnz c (List.mem_cons_self c rest)
    have hrest := ih (fun x hx => hnz x (List.mem_cons_of_mem c hx))
    unfold flushLoop
    rw [if_neg hc]
    cases g
    · simp [hrest]
    · by_cases hq : q c 1 = true
      · simp [hq, hrest]
      · simp [hq, hrest]

theorem flushLoop_no_fence (g : Bool) (q : Nat → Nat → Bool) (l : List Nat) :
    ∀ e, e ∈ (flushLoop g q l).events → e.isFence = false := by
  induction l with
  | nil => intro e he; simp [flushLoop] at he
  | cons c rest ih =>
    intro e he
    unfold flushLoop at he
    by_cases hc : c = 0
    · simp [hc] at he
    · rw [if_neg hc] at he
      cases g
      · simp only [Bool.false_eq_true, if_false, List.mem_cons] at he
        rcases he with rfl | he
        · rfl
        · exact ih e he
      · by_cases hq : q c 1 = true
        · simp only [hq, if_true, List.mem_cons] at he
          rcases he with rfl | rfl | he
          · rfl
          · rfl
          · exact ih e he
        · simp only [hq, if_true, Bool.false_eq_true, if_false, List.mem_cons] at he
          rcases he with rfl | he
          · rfl
          · exact ih e he

theorem flushLoop_count_flush (g : Bool) (q : Nat → Nat → Bool) (l : List Nat)
    (hnz : ∀ x, x ∈ l → x ≠ 0) (hnd : l.Nodup) (x : Nat) :
    (flushLoop g q l).events.count (Event.clflush x) =
      if x ∈ l ∧ (g = true → q x 1 = true) then 1 else 0 := by
  induction l with
  | nil => simp [flushLoop]
  | cons c rest ih =>
    have hc : c ≠ 0 := hnz c (List.mem_cons_self c rest)
    have hnd2 := List.nodup_cons.1 hnd
    have hrest := ih (fun y hy => hnz y (List.mem_cons_of_mem c hy)) hnd2.2
    unfold flushLoop
    rw [if_neg hc]
    by_cases hxc : x = c
    · subst hxc
      have hx : ¬ x ∈ rest := hnd2.1
      have h0 : List.count (Event.clflush x) (flushLoop g q rest).events = 0 := by
        rw [hrest]; simp [hx]
      cases g
      · simp [h0]
      · by_cases hq : q x 1 = true
        · simp [hq, h0]
        · simp [hq, h0]
    · have hne : ¬ c = x := fun h => hxc h.symm
      cases g
      · simp [hrest, hxc, hne]
      · by_cases hq : q c 1 = true
        · simp [hq, hrest, hxc, hne]
        · simp [hq, hrest, hxc, hne]

theorem flushLoop_query (q : Nat → Nat → Bool) (l : List Nat)
    (hnz : ∀ x, x ∈ l → x ≠ 0) (x : Nat) (hx : x ∈ l) :
    Event.query x 1 ∈ (flushLoop true q l).events := by
  induction l with
  | nil => simp at hx
  | cons c rest ih =>
    have hc : c ≠ 0 := hnz c (List.mem_cons_self c rest)
    unfold flushLoop
    rw [if_neg hc]
    rcases List.mem_cons.1 hx with rfl | hx2
    · by_cases hq : q x 1 = true <;> simp [hq]
    · have := ih (fun y hy => hnz y (List.mem_cons_of_mem c hy)) hx2
      by_cases hq : q c 1 = true <;> simp [hq, this]

theorem count_fence_eq_zero (l : List Event) (h : ∀ e, e ∈ l → e.isFence = false) :
    l.count Event.fence = 0 := by
  rw [List.count_eq_zero]
  intro hmem
  have := h _ hmem
  simp [Event.isFence] at this

theorem flushLoopUnconstrained_eq (l : List Nat) (hnz : ∀ x, x ∈ l → x ≠ 0) :
    flushLoopUnconstrained l = ⟨l.map Event.clflush, true⟩ := by
  induction l with
  | nil => rfl
  | cons c rest ih =>
    have hc : c ≠ 0 := hnz c (List.mem_cons_self c rest)
    unfold flushLoopUnconstrained
    rw [if_neg hc, ih (fun y hy => hnz y (List.mem_cons_of_mem c hy))]
    rfl

theorem flushLoopUnconstrained_only_flush (l : List Nat) :
    ∀ e, e ∈ (flushLoopUnconstrained l).events → e.isFlush = true := by
  induction l with
  | nil => intro e he; simp [flushLoopUnconstrained] at he
  | cons c rest ih =>
    intro e he
    unfold flushLoopUnconstrained at he
    by_cases hc : c = 0
    · simp [hc] at he
    · rw [if_neg hc] at he
      simp only [List.mem_cons] at he
      rcases he with rfl | he
      · rfl
      · exact ih e he

theorem flushCacheLines_shape (cfg : BuildCfg) (q : Nat → Nat → Bool) (s : SetOfInts)
    (hcfg : cfg.forceFail = false) (hnz : ∀ x, x ∈ s → x ≠ 0) :
    flushCacheLines cfg q s =
      ⟨Event.fence :: ((flushLoop cfg.globalCommit q s.elems).events ++ [Event.fence]),
        true⟩ := by
  unfold flushCacheLines
  rw [failsAtEntry_eq_false cfg hcfg]
  simp only [Bool.false_eq_true, if_false]
  rw [if_pos (flushLoop_completed _ q s.elems hnz)]

/-- C3 (amended). In a build without `_FORCE_FAIL`, for every Cache-Line Set whose
elements are all non-zero (the empty set included), `flushCacheLines` returns and its
events are a fence, then a body without any fence, then a fence: exactly two fences, one
before and one after every flush instruction. On the empty set the events are exactly
`[fence, fence]`. -/
theorem flushCacheLines_two_fences (cfg : BuildCfg) (q : Nat → Nat → Bool) (s : SetOfInts)
    (hcfg : cfg.forceFail = false) (hnz : ∀ x, x ∈ s → x ≠ 0) :
    (∃ body, flushCacheLines cfg q s = ⟨Event.fence :: (body ++ [Event.fence]), true⟩ ∧
      (∀ e, e ∈ body → e.isFence = false) ∧
      (flushCacheLines cfg q s).events.count Event.fence = 2) ∧
    flushCacheLines cfg q SetOfInts.empty = ⟨[Event.fence, Event.fence], true⟩ := by
  have hshape := flushCacheLines_shape cfg q s hcfg hnz
  have hnf := flushLoop_no_fence cfg.globalCommit q s.elems
  refine ⟨⟨_, hshape, hnf, ?_⟩, ?_⟩
  · rw [hshape]
    simp [List.count_cons, List.count_append, count_fence_eq_zero _ hnf]
  · rw [flushCacheLines_shape cfg q SetOfInts.empty hcfg
      (fun x hx => absurd hx (SetOfInts.not_mem_empty x))]
    rfl

theorem flushCacheLines_two_fences_witness :
    (∃ body, flushCacheLines ⟨false, true⟩ (fun a _ => decide (a = 64))
        (SetOfInts.ofList [64, 128]) = ⟨Event.fence :: (body ++ [Event.fence]), true⟩ ∧
      (∀ e, e ∈ body → e.isFence = false) ∧
      (flushCacheLines ⟨false, true⟩ (fun a _ => decide (a = 64))
        (SetOfInts.ofList [64, 128])).events.count Event.fence = 2) ∧
    flushCacheLines ⟨false, true⟩ (fun a _ => decide (a = 64)) SetOfInts.empty
      = ⟨[Event.fence, Event.fence], true⟩ :=
  flushCacheLines_two_fences ⟨false, true⟩ (fun a _ => decide (a = 64))
    (SetOfInts.ofList [64, 128]) rfl (by decide)

/-- C3 (counterexample). On the set `{0}` (what `collectCacheLines` builds from address
0 and size 1) `flushCacheLines` emits the leading fence, then `assert(*ci)` fails: the
run ends with one fence emitted, not two. -/
theorem flushCacheLines_one_fence_on_zero_line :
    flushCacheLines ⟨false, false⟩ (fun _ _ => true) (SetOfInts.ofList [0])
        = ⟨[Event.fence], false⟩ ∧
      collectCacheLines ⟨false, false⟩ (2 ^ 6) 1 SetOfInts.empty 0 1
        = Outcome.done (SetOfInts.ofList [0]) := by
  decide

/-- C4 (amended). In a build without `_FORCE_FAIL`, for a line size `L = 2 ^ k`, every
address `addr ≥ L` and size `sz > 0` with `addr + sz + L ≤ 2 ^ 64`: when every element
of the set is a non-zero multiple of `L` before `collectCacheLines`, so is every element
of the returned set, and the `assert(*ci)` of `flushCacheLines` and of
`flushCacheLinesUnconstrained` holds on it (both routines return). -/
theorem collectCacheLines_nonzero_aligned (cfg : BuildCfg) (q : Nat → Nat → Bool)
    (k fuel : Nat) (set : SetOfInts) (addr sz : Nat)
    (hcfg : cfg.forceFail = false) (hk : k < 64) (hs : 0 < sz) (haddr : 2 ^ k ≤ addr)
    (hfit : addr + sz + 2 ^ k ≤ 2 ^ 64)
    (hfuel : (addr % 2 ^ k + sz + 2 ^ k - 1) / 2 ^ k ≤ fuel)
    (hinv : ∀ x, x ∈ set → x ≠ 0 ∧ 2 ^ k ∣ x) :
    ∃ r, collectCacheLines cfg (2 ^ k) fuel set addr sz = Outcome.done r ∧
      (∀ x, x ∈ r → x ≠ 0 ∧ 2 ^ k ∣ x) ∧
      (flushCacheLines cfg q r).completed = true ∧
      (flushCacheLinesUnconstrained cfg r).completed = true := by
  have hL : 0 < 2 ^ k := Nat.pow_pos (by norm_num)
  have hc := ceil_lines_eq (2 ^ k) addr sz hL hs
  obtain ⟨r, hr, hmem⟩ := collectCacheLines_lines cfg k fuel set addr sz hcfg hk hs
    hfit (by omega)
  have hall : ∀ x, x ∈ r → x ≠ 0 ∧ 2 ^ k ∣ x := by
    intro x hx
    rcases (hmem x).1 hx with h | ⟨qq, h1, -, rfl⟩
    · exact hinv x h
    · refine ⟨?_, Dvd.intro qq rfl⟩
      have hq1 : 1 ≤ addr / 2 ^ k := (Nat.one_le_div_iff hL).2 haddr
      have : 0 < 2 ^ k * qq := Nat.mul_pos hL (by omega)
      omega
  have hnz : ∀ x, x ∈ r → x ≠ 0 := fun x hx => (hall x hx).1
  refine ⟨r, hr, hall, ?_, ?_⟩
  · rw [flushCacheLines_shape cfg q r hcfg hnz]
  · unfold flushCacheLinesUnconstrained
    rw [failsAtEntry_eq_false cfg hcfg]
    simp only [Bool.false_eq_true, if_false]
    rw [flushLoopUnconstrained_eq r.elems hnz]

theorem collectCacheLines_nonzero_aligned_witness :
    ∃ r, collectCacheLines ⟨false, false⟩ (2 ^ 6) 3 (SetOfInts.ofList [4096]) 100 100
        = Outcome.done r ∧
      (∀ x, x ∈ r → x ≠ 0 ∧ 2 ^ 6 ∣ x) ∧
      (flushCacheLines ⟨false, false⟩ (fun _ _ => true) r).completed = true ∧
      (flushCacheLinesUnconstrained ⟨false, false⟩ r).completed = true :=
  collectCacheLines_nonzero_aligned ⟨false, false⟩ (fun _ _ => true) 6 3
    (SetOfInts.ofList [4096]) 100 100 rfl (by decide) (by decide) (by decide) (by decide)
    (by decide) (by
      intro x hx
      have : x = 4096 := by simpa [SetOfInts.mem_def, SetOfInts.ofList, SetOfInts.insert,
        SetOfInts.empty, insertKey] using hx
      subst this
      exact ⟨by norm_num, by norm_num⟩)

/-- C4 (counterexample). With line size 64, `collectCacheLines` on the empty set with
address 8 and size 8 returns the set `{0}`: the zero line address is placed in the set,
and the `assert(*ci)` of both flush routines fails on it. -/
theorem collectCacheLines_places_zero_line :
    collectCacheLines ⟨false, false⟩ (2 ^ 6) 1 SetOfInts.empty 8 8
        = Outcome.done (SetOfInts.ofList [0]) ∧
      0 ∈ SetOfInts.ofList [0] ∧
      (flushCacheLines ⟨false, false⟩ (fun _ _ => true) (SetOfInts.ofList [0])).completed
        = false ∧
      (flushCacheLinesUnconstrained ⟨false, false⟩ (SetOfInts.ofList [0])).completed
        = false := by
  decide

/-- C6. In a build without `_FORCE_FAIL`, for every set, address, line size and step
budget, `collectCacheLines` with `sz == 0` returns the set it was given: no line is
inserted, and the empty set stays empty. -/
theorem collectCacheLines_zero_size (cfg : BuildCfg) (L fuel : Nat) (set : SetOfInts)
    (addr : Nat) (hcfg : cfg.forceFail = false) :
    collectCacheLines cfg L fuel set addr 0 = Outcome.done set ∧
      collectCacheLines cfg L fuel SetOfInts.empty addr 0 = Outcome.done SetOfInts.empty := by
  unfold collectCacheLines
  rw [failsAtEntry_eq_false cfg hcfg]
  simp

theorem collectCacheLines_zero_size_witness :
    collectCacheLines ⟨false, true⟩ 64 0 (SetOfInts.ofList [64, 4096]) 100 0
        = Outcome.done (SetOfInts.ofList [64, 4096]) ∧
      collectCacheLines ⟨false, true⟩ 64 0 SetOfInts.empty 100 0
        = Outcome.done SetOfInts.empty :=
  collectCacheLines_zero_size ⟨false, true⟩ 64 0 (SetOfInts.ofList [64, 4096]) 100 rfl

/-- C7. Under the global-commit configuration (and without `_FORCE_FAIL`), for every
Cache-Line Set of non-zero addresses and every answer function `q` of the
Persistent-Region Query, `flushCacheLines` returns with events `fence, body, fence`, the
body without a fence; every line of the set is queried with `NVM_IsInOpenPR(line, 1)`;
a line of the set is flushed if and only if its query answers true, and then exactly
once; nothing outside the set is flushed. -/
theorem flushCacheLines_global_commit (cfg : BuildCfg) (q : Nat → Nat → Bool)
    (s : SetOfInts) (hcfg : cfg.forceFail = false) (hg : cfg.globalCommit = true)
    (hnz : ∀ x, x ∈ s → x ≠ 0) :
    ∃ body, flushCacheLines cfg q s = ⟨Event.fence :: (body ++ [Event.fence]), true⟩ ∧
      (∀ e, e ∈ body → e.isFence = false) ∧
      (∀ x, x ∈ s → Event.query x 1 ∈ body) ∧
      (∀ x, x ∈ s → (Event.clflush x ∈ body ↔ q x 1 = true)) ∧
      (∀ x, Event.clflush x ∈ body → x ∈ s) ∧
      (∀ x, body.count (Event.clflush x) ≤ 1) := by
  have hshape := flushCacheLines_shape cfg q s hcfg hnz
  have hcount := flushLoop_count_flush cfg.globalCommit q s.elems hnz s.nodup
  rw [hg] at hshape hcount
  have hnf := flushLoop_no_fence true q s.elems
  refine ⟨_, hshape, hnf, ?_, ?_, ?_, ?_⟩
  · intro x hx
    exact flushLoop_query q s.elems hnz x hx
  · intro x hx
    have hx2 : x ∈ s.elems := hx
    rw [← List.count_pos_iff, hcount x]
    by_cases hq : q x 1 = true
    · simp [hx2, hq]
    · simp [hx2, hq]
  · intro x hx
    rw [← List.count_pos_iff, hcount x] at hx
    by_cases hx2 : x ∈ s.elems
    · exact hx2
    · simp [hx2] at hx
  · intro x
    rw [hcount x]
    split_ifs <;> omega

theorem flushCacheLines_global_commit_witness :
    ∃ body, flushCacheLines ⟨false, true⟩ (fun a _ => decide (a = 64))
        (SetOfInts.ofList [64, 128]) = ⟨Event.fence :: (body ++ [Event.fence]), true⟩ ∧
      (∀ e, e ∈ body → e.isFence = false) ∧
      (∀ x, x ∈ SetOfInts.ofList [64, 128] → Event.query x 1 ∈ body) ∧
      (∀ x, x ∈ SetOfInts.ofList [64, 128] →
        (Event.clflush x ∈ body ↔ (fun a (_ : Nat) => decide (a = 64)) x 1 = true)) ∧
      (∀ x, Event.clflush x ∈ body → x ∈ SetOfInts.ofList [64, 128]) ∧
      (∀ x, body.count (Event.clflush x) ≤ 1) :=
  flushCacheLines_global_commit ⟨false, true⟩ (fun a _ => decide (a = 64))
    (SetOfInts.ofList [64, 128]) rfl rfl (by decide)

/-- C8 (amended). In every build configuration and on every set
`flushCacheLinesUnconstrained` emits no fence and no Persistent-Region Query. In the
configurations without `_FORCE_FAIL`, on every Cache-Line Set of non-zero addresses it
returns after emitting exactly one cache-line flush per element of the set, in the order
of the set: as many flushes as the set has elements, each element flushed once. -/
theorem flushCacheLinesUnconstrained_flushes (cfg : BuildCfg) (s : SetOfInts) :
    (∀ e, e ∈ (flushCacheLinesUnconstrained cfg s).events →
      e.isFence = false ∧ e.isQuery = false ∧ e.isFlush = true) ∧
    (cfg.forceFail = false → (∀ x, x ∈ s → x ≠ 0) →
      flushCacheLinesUnconstrained cfg s = ⟨s.elems.map Event.clflush, true⟩ ∧
      (flushCacheLinesUnconstrained cfg s).events.length = s.size ∧
      ∀ x, (flushCacheLinesUnconstrained cfg s).events.count (Event.clflush x)
        = if x ∈ s then 1 else 0) := by
  constructor
  · intro e he
    unfold flushCacheLinesUnconstrained at he
    by_cases hf : cfg.failsAtEntry = true
    · simp [hf] at he
    · rw [if_neg hf] at he
      have := flushLoopUnconstrained_only_flush s.elems e he
      cases e <;> simp_all [Event.isFence, Event.isQuery, Event.isFlush]
  · intro hcfg hnz
    have h : flushCacheLinesUnconstrained cfg s = ⟨s.elems.map Event.clflush, true⟩ := by
      unfold flushCacheLinesUnconstrained
      rw [failsAtEntry_eq_false cfg hcfg]
      simp only [Bool.false_eq_true, if_false]
      exact flushLoopUnconstrained_eq s.elems hnz
    refine ⟨h, ?_, ?_⟩
    · rw [h]; simp [SetOfInts.size]
    · intro x
      rw [h]
      have hinj : Function.Injective Event.clflush := by
        intro a b hab; injection hab
      show List.count (Event.clflush x) (List.map Event.clflush s.elems) = _
      rw [List.count_map_of_injective _ _ hinj]
      by_cases hx : x ∈ s
      · rw [List.count_eq_one_of_mem s.nodup hx, if_pos hx]
      · rw [List.count_eq_zero_of_not_mem hx, if_neg hx]

theorem flushCacheLinesUnconstrained_flushes_witness :
    flushCacheLinesUnconstrained ⟨false, true⟩ (SetOfInts.ofList [64, 128])
        = ⟨(SetOfInts.ofList [64, 128]).elems.map Event.clflush, true⟩ ∧
      (flushCacheLinesUnconstrained ⟨false, true⟩ (SetOfInts.ofList [64, 128])).events.length
        = (SetOfInts.ofList [64, 128]).size ∧
      ∀ x, (flushCacheLinesUnconstrained ⟨false, true⟩
          (SetOfInts.ofList [64, 128])).events.count (Event.clflush x)
        = if x ∈ SetOfInts.ofList [64, 128] then 1 else 0 :=
  (flushCacheLinesUnconstrained_flushes ⟨false, true⟩ (SetOfInts.ofList [64, 128])).2
    rfl (by decide)

/-- C8 (counterexample). In a build with `_FORCE_FAIL`, `flushCacheLinesUnconstrained`
calls `fail_program()` first: on the set `{64}` of one non-zero line it emits no flush at
all and does not return. -/
theorem flushCacheLinesUnconstrained_force_fail :
    flushCacheLinesUnconstrained ⟨true, false⟩ (SetOfInts.ofList [64]) = ⟨[], false⟩ ∧
      (SetOfInts.ofList [64]).size = 1 ∧ ¬ (0 ∈ SetOfInts.ofList [64]) := by
  decide

/-! ## `CbLog` -/

/-- C9 (amended). For every `CbLog` with `uint32_t` fields, `Size ≥ 1` and
`End < 2 ^ 32 - 1` (so that `End + 1` does not wrap; in particular whenever
`End < Size`), `isFull()` returns a value, and it returns true if and only if
`(End+1) mod Size == Start`. -/
theorem isFull_iff (c : CbLog) (hsize : 0 < c.Size) (hend : c.End + 1 < 2 ^ 32) :
    c.isFull = some (decide ((c.End + 1) % c.Size = c.Start)) ∧
      (c.isFull = some true ↔ (c.End + 1) % c.Size = c.Start) := by
  have h : c.isFull = some (decide ((c.End + 1) % c.Size = c.Start)) := by
    unfold CbLog.isFull WORD32
    rw [if_neg (by omega), Nat.mod_eq_of_lt hend]
  refine ⟨h, ?_⟩
  rw [h]
  simp

theorem isFull_iff_witness :
    CbLog.isFull ⟨4, 0, 3, 2⟩ = some (decide ((2 + 1) % 4 = 3)) ∧
      (CbLog.isFull ⟨4, 0, 3, 2⟩ = some true ↔ (2 + 1) % 4 = 3) :=
  isFull_iff ⟨4, 0, 3, 2⟩ (by decide) (by decide)

/-- C9 (counterexample). For the `CbLog` with `Size = 3`, `Start = 0` and
`End = 2 ^ 32 - 1`, the 32-bit sum `End + 1` wraps to 0 and `isFull()` returns true,
although `(End+1) mod Size = 2 ^ 32 mod 3 = 1` differs from `Start`. -/
theorem isFull_wraps_at_max_end :
    CbLog.inRange ⟨3, 0, 0, 2 ^ 32 - 1⟩ ∧
      CbLog.isFull ⟨3, 0, 0, 2 ^ 32 - 1⟩ = some true ∧
      (2 ^ 32 - 1 + 1) % 3 ≠ 0 := by
  decide

theorem succ_mod_of_lt (x S : Nat) (hx : x < S) :
    (x + 1) % S = if x + 1 = S then 0 else x + 1 := by
  split_ifs with h
  · rw [h, Nat.mod_self]
  · exact Nat.mod_eq_of_lt (by omega)

theorem holds_isFull (c : CbLog) (n : Nat) (h : c.holds n) :
    c.isFull = some (decide (n + 1 = c.Size)) := by
  obtain ⟨h1, h2, h3, h4, h5, h6⟩ := h
  unfold CbLog.isFull WORD32
  rw [if_neg (by omega), Nat.mod_eq_of_lt (show c.End + 1 < 2 ^ 32 by omega),
    succ_mod_of_lt _ _ h4]
  congr 1
  split_ifs with h7
  · simp only [decide_eq_decide]; omega
  · simp only [decide_eq_decide]; omega

theorem holds_isEmpty (c : CbLog) (n : Nat) (h : c.holds n) :
    c.isEmpty = decide (n = 0) := by
  obtain ⟨h1, h2, h3, h4, h5, h6⟩ := h
  unfold CbLog.isEmpty
  simp only [decide_eq_decide]; omega

theorem holds_append (c c1 : CbLog) (n : Nat) (h : c.holds n) (hstep : c.append = some c1) :
    c1.holds (n + 1) ∧ c1.Size = c.Size := by
  have hfull := holds_isFull c n h
  obtain ⟨h1, h2, h3, h4, h5, h6⟩ := h
  unfold CbLog.append at hstep
  rw [hfull] at hstep
  by_cases hn : n + 1 = c.Size
  · simp [hn] at hstep
  · simp only [hn, decide_False, if_true] at hstep
    injection hstep with hstep
    subst hstep
    refine ⟨?_, rfl⟩
    unfold CbLog.holds WORD32
    simp only
    rw [Nat.mod_eq_of_lt (show c.End + 1 < 2 ^ 32 by omega), succ_mod_of_lt _ _ h4]
    refine ⟨h1, h2, h3, ?_, by omega, ?_⟩
    · split_ifs <;> omega
    · split_ifs <;> omega

theorem holds_retire (c c1 : CbLog) (n : Nat) (h : c.holds n) (hstep : c.retire = some c1) :
    ∃ m, n = m + 1 ∧ c1.holds m ∧ c1.Size = c.Size := by
  have hempty := holds_isEmpty c n h
  obtain ⟨h1, h2, h3, h4, h5, h6⟩ := h
  unfold CbLog.retire at hstep
  rw [hempty] at hstep
  by_cases hn : n = 0
  · simp [hn] at hstep
  · simp only [hn, decide_False, if_true] at hstep
    injection hstep with hstep
    subst hstep
    refine ⟨n - 1, by omega, ?_, rfl⟩
    unfold CbLog.holds WORD32
    simp only
    rw [Nat.mod_eq_of_lt (show c.Start + 1 < 2 ^ 32 by omega), succ_mod_of_lt _ _ h3]
    refine ⟨h1, h2, ?_, h4, by omega, ?_⟩
    · split_ifs <;> omega
    · split_ifs <;> omega

theorem liveEntries_cons_append (ops : List CbOp) :
    liveEntries (CbOp.append :: ops) = liveEntries ops + 1 := by
  unfold liveEntries
  simp [List.count_cons]
  ring

theorem liveEntries_cons_retire (ops : List CbOp) :
    liveEntries (CbOp.retire :: ops) = liveEntries ops - 1 := by
  unfold liveEntries
  simp [List.count_cons]
  ring

theorem holds_run (ops : List CbOp) :
    ∀ (c c1 : CbLog) (n : Nat), c.holds n → c.run ops = some c1 →
      ∃ m : Nat, (m : Int) = n + liveEntries ops ∧ c1.holds m ∧ c1.Size = c.Size := by
  induction ops with
  | nil =>
    intro c c1 n h hrun
    simp only [CbLog.run, Option.some.injEq] at hrun
    subst hrun
    exact ⟨n, by simp [liveEntries], h, rfl⟩
  | cons op ops ih =>
    intro c c1 n h hrun
    simp only [CbLog.run] at hrun
    cases hstep : c.step op with
    | none => rw [hstep] at hrun; simp at hrun
    | some c2 =>
      rw [hstep] at hrun
      simp only [Option.some_bind] at hrun
      cases op with
      | append =>
        obtain ⟨h2, hs2⟩ := holds_append c c2 n h hstep
        obtain ⟨m, hm, hc1, hs1⟩ := ih c2 c1 (n + 1) h2 hrun
        refine ⟨m, ?_, hc1, by rw [hs1, hs2]⟩
        rw [hm, liveEntries_cons_append]; push_cast; ring
      | retire =>
        obtain ⟨p, hp, h2, hs2⟩ := holds_retire c c2 n h hstep
        obtain ⟨m, hm, hc1, hs1⟩ := ih c2 c1 p h2 hrun
        refine ⟨m, ?_, hc1, by rw [hs1, hs2]⟩
        rw [hm, liveEntries_cons_retire, hp]; push_cast; ring

/-- C10. Start from a `CbLog` with `uint32_t` fields and `Start == End < Size`, and let
any sequence of appends (`End := (End+1) mod Size`, allowed when not `isFull`) and
retires (`Start := (Start+1) mod Size`, allowed when not `isEmpty`) run. Then the number
of live entries (appends minus retires) lies between 0 and `Size - 1`, `isFull()` holds
exactly when it equals `Size - 1`, and `isEmpty()` holds exactly when it is 0 (before the
first append and after all entries have retired). -/
theorem isFull_isEmpty_track_live (c0 c : CbLog) (ops : List CbOp) (hr : c0.inRange)
    (hstart : c0.Start = c0.End) (hlt : c0.End < c0.Size) (hrun : c0.run ops = some c) :
    (c.isFull = some true ↔ liveEntries ops = (c0.Size : Int) - 1) ∧
      (c.isEmpty = true ↔ liveEntries ops = 0) ∧
      0 ≤ liveEntries ops ∧ liveEntries ops ≤ (c0.Size : Int) - 1 := by
  have h0 : c0.holds 0 := by
    obtain ⟨h1, -, -, -⟩ := hr
    unfold WORD32 at h1
    exact ⟨by omega, h1, by omega, hlt, by omega, Or.inl (by omega)⟩
  obtain ⟨m, hm, hc, hsz⟩ := holds_run ops c0 c 0 h0 hrun
  have hfull := holds_isFull c m hc
  have hempty := holds_isEmpty c m hc
  obtain ⟨h1, h2, h3, h4, h5, h6⟩ := hc
  rw [hfull, hempty, ← hsz]
  simp only [Nat.cast_zero, zero_add] at hm
  rw [← hm]
  refine ⟨?_, ?_, by omega, by omega⟩
  · simp only [Option.some.injEq, decide_eq_true_eq]; omega
  · simp only [decide_eq_true_eq]; omega

theorem isFull_isEmpty_track_live_witness :
    (CbLog.isFull ⟨3, 0, 2, 1⟩ = some true ↔
        liveEntries [CbOp.append, CbOp.append, CbOp.retire, CbOp.retire, CbOp.append,
          CbOp.append] = ((3 : Nat) : Int) - 1) ∧
      (CbLog.isEmpty ⟨3, 0, 2, 1⟩ = true ↔
        liveEntries [CbOp.append, CbOp.append, CbOp.retire, CbOp.retire, CbOp.append,
          CbOp.append] = 0) ∧
      0 ≤ liveEntries [CbOp.append, CbOp.append, CbOp.retire, CbOp.retire, CbOp.append,
          CbOp.append] ∧
      liveEntries [CbOp.append, CbOp.append, CbOp.retire, CbOp.retire, CbOp.append,
          CbOp.append] ≤ ((3 : Nat) : Int) - 1 :=
  isFull_isEmpty_track_live ⟨3, 0, 0, 0⟩ ⟨3, 0, 2, 1⟩
    [CbOp.append, CbOp.append, CbOp.retire, CbOp.retire, CbOp.append, CbOp.append]
    (by decide) rfl (by decide) (by decide)

/-! ## The store loop of the instrumenter -/

/-- C5 (amended). For every scalar store whose value has a width `w` of more than 64 and
at most 128 bits that is a multiple of 8, `performNvmInstrumentation` emits exactly two
`nvm_store` calls for it, in this order: `nvm_store(addr, 64)` and
`nvm_store(addr + 8, w - 64)`, the second address being the 64-bit sum of the store
address and 8; the two sizes sum to `w`. Both calls precede the store. -/
theorem instrumentStore_wide (tf : Bool) (s : StoreInst) (w : Nat)
    (hw : storedSize s.valTy = some w) (h64 : 64 < w) (h128 : w ≤ 128)
    (h8 : w % 8 = 0) :
    ∃ before after, instrumentStore tf s = some (before ++ Instr.store s :: after) ∧
      storeHookArgs before =
        [[s.hookAddr, Val.constInt 64], [s.extraAddr, Val.constInt (w - 64)]] ∧
      storeHookArgs after = [] ∧
      (∀ env, s.hookAddr.eval env = s.addr.eval env ∧
        s.extraAddr.eval env = wadd (s.addr.eval env) 8) ∧
      64 + (w - 64) = w := by
  have hsplit : splitSize w = some (64, w - 64) := by
    unfold splitSize
    rw [if_pos h64, if_pos h128, if_pos h8]
  have hex : ¬ (w - 64 = 0) := by omega
  have heval : ∀ env, s.hookAddr.eval env = s.addr.eval env ∧
      s.extraAddr.eval env = wadd (s.addr.eval env) 8 := by
    intro env
    constructor
    · unfold StoreInst.hookAddr
      split_ifs <;> simp [Val.eval]
    · simp [StoreInst.extraAddr, Val.eval, WORD]
  refine ⟨(if s.addrIsInt8Ptr then [] else insertIfInstruction (Val.pointerCast s.addr))
      ++ [Instr.hook FuncEntry.StoreFuncEntry [s.hookAddr, Val.constInt 64]]
      ++ (insertIfInstruction (Val.ptrToInt s.addr)
        ++ [Instr.compute (Val.add (Val.ptrToInt s.addr) (Val.constInt 8))]
        ++ insertIfInstruction s.extraAddr
        ++ [Instr.hook FuncEntry.StoreFuncEntry [s.extraAddr, Val.constInt (w - 64)]]),
    [if tf then Instr.hook FuncEntry.AsyncDataFlushEntry [s.hookAddr]
      else Instr.hook FuncEntry.BarrierFuncEntry [s.hookAddr]], ?_, ?_, ?_, heval, by omega⟩
  · unfold instrumentStore
    rw [hw]
    simp only [hsplit, if_neg hex]
    simp
  · cases s.addrIsInt8Ptr <;> cases hc : s.addr.isConstant <;>
      simp [insertIfInstruction, storeHookArgs, StoreInst.extraAddr, Val.isConstant, hc]
  · cases tf <;> simp [storeHookArgs]

theorem instrumentStore_wide_witness :
    ∃ before after, instrumentStore false ⟨LType.x86_fp80, Val.operand 0 false, false⟩
        = some (before ++
          Instr.store ⟨LType.x86_fp80, Val.operand 0 false, false⟩ :: after) ∧
      storeHookArgs before =
        [[StoreInst.hookAddr ⟨LType.x86_fp80, Val.operand 0 false, false⟩, Val.constInt 64],
         [StoreInst.extraAddr ⟨LType.x86_fp80, Val.operand 0 false, false⟩,
           Val.constInt (80 - 64)]] ∧
      storeHookArgs after = [] ∧
      (∀ env, (StoreInst.hookAddr ⟨LType.x86_fp80, Val.operand 0 false, false⟩).eval env
          = (Val.operand 0 false).eval env ∧
        (StoreInst.extraAddr ⟨LType.x86_fp80, Val.operand 0 false, false⟩).eval env
          = wadd ((Val.operand 0 false).eval env) 8) ∧
      64 + (80 - 64) = 80 :=
  instrumentStore_wide false ⟨LType.x86_fp80, Val.operand 0 false, false⟩ 80 rfl
    (by decide) (by decide) (by decide)

/-- C5 (counterexample). A store of an `i65` value has a width of 65 bits, more than 64
and at most 128, but `assert(!(sz % 8))` fails for it: the instrumentation ends without
any `nvm_store` call, whatever the flush policy. -/
theorem instrumentStore_i65_asserts :
    storedSize (LType.integer 65) = some 65 ∧
      instrumentStore false ⟨LType.integer 65, Val.operand 0 false, false⟩ = none ∧
      instrumentStore true ⟨LType.integer 65, Val.operand 0 false, false⟩ = none := by
  decide

/-! ## More on the loop: step budgets -/

theorem collectLoop_more_fuel (L last : Nat) :
    ∀ (fuel : Nat) (set : SetOfInts) (line : Nat) (r : SetOfInts),
      collectLoop L last fuel set line = Outcome.done r →
      ∀ fuel2, fuel ≤ fuel2 → collectLoop L last fuel2 set line = Outcome.done r := by
  intro fuel
  induction fuel with
  | zero => intro set line r h; exact Outcome.noConfusion h
  | succ f ih =>
    intro set line r h fuel2 hle
    obtain ⟨g, rfl⟩ : ∃ g, fuel2 = g + 1 := ⟨fuel2 - 1, by omega⟩
    simp only [collectLoop] at h ⊢
    split_ifs at h ⊢ with hc
    · exact ih _ _ r h g (by omega)
    · exact h

theorem collectLoop_short_of_fuel (L last : Nat) (hL : 0 < L) (hlast : last + L < 2 ^ 64) :
    ∀ (fuel n : Nat) (set : SetOfInts) (line : Nat), line + n * L = last → fuel ≤ n →
      collectLoop L last fuel set line = Outcome.outOfFuel := by
  intro fuel
  induction fuel with
  | zero => intro n set line _ _; rfl
  | succ f ih =>
    intro n set line hline hle
    obtain ⟨m, rfl⟩ : ∃ m, n = m + 1 := ⟨n - 1, by omega⟩
    have hrec : line + L + m * L = last := by rw [← hline, Nat.succ_mul]; omega
    have h1 : wadd line L = line + L := wadd_of_lt _ _ (by omega)
    have h2 : wadd last 1 = last + 1 := wadd_of_lt _ _ (by omega)
    simp only [collectLoop, h1, h2]
    rw [if_pos (by omega)]
    exact ih m _ _ hrec (by omega)

theorem collectCacheLines_cfg (cfg : BuildCfg) (L fuel : Nat) (set : SetOfInts)
    (a s : Nat) (hcfg : cfg.forceFail = false) :
    collectCacheLines cfg L fuel set a s = collectCacheLines ⟨false, false⟩ L fuel set a s := by
  unfold collectCacheLines
  rw [failsAtEntry_eq_false cfg hcfg, failsAtEntry_eq_false ⟨false, false⟩ rfl]

theorem collectCacheLines_more_fuel (cfg : BuildCfg) (L fuel fuel2 : Nat)
    (set r : SetOfInts) (a s : Nat) (hle : fuel ≤ fuel2)
    (h : collectCacheLines cfg L fuel set a s = Outcome.done r) :
    collectCacheLines cfg L fuel2 set a s = Outcome.done r := by
  unfold collectCacheLines at h ⊢
  split_ifs at h ⊢ with h1 h2
  · exact h
  · exact collectLoop_more_fuel _ _ _ _ _ _ h _ hle

/-! ## End-to-end example -/

/-- C11. With line size 64, in a build without `_FORCE_FAIL`: the pass turns a function
with a 32-bit store to the operand of value `0x1000` and a 128-bit store to the operand
of value `0x2000` into a sequence whose `nvm_store` calls are `(0x1000, 32)`,
`(0x2000, 64)`, `(0x2008, 64)`, in this order; collecting 4 bytes at `0x1000`, 8 bytes
at `0x2000` and 8 bytes at `0x2008` into the empty set gives the set `{0x1000, 0x2000}`
for every positive step budget; and `flushCacheLines` on that set returns with the
fences and flushes `fence, flush 0x1000, flush 0x2000, fence` (under global commit: when
the region of both lines is open). -/
theorem end_to_end_example (tf : Bool) (fresh env : Nat → Nat) (cfg : BuildCfg)
    (q : Nat → Nat → Bool) (fuel : Nat)
    (h0 : env 0 = 0x1000) (h1 : env 1 = 0x2000) (hfuel : 0 < fuel)
    (hcfg : cfg.forceFail = false)
    (hopen : cfg.globalCommit = true → q 0x1000 1 = true ∧ q 0x2000 1 = true) :
    (∃ seq, runOnFunction tf fresh
        [SrcInstr.store ⟨LType.integer 32, Val.operand 0 false, false⟩ false,
         SrcInstr.store ⟨LType.integer 128, Val.operand 1 false, false⟩ false] = some seq ∧
      storeHookValues env seq = [[0x1000, 32], [0x2000, 64], [0x2008, 64]]) ∧
    collectCacheLines cfg 64 fuel SetOfInts.empty 0x1000 4
      = Outcome.done (SetOfInts.ofList [0x1000]) ∧
    collectCacheLines cfg 64 fuel (SetOfInts.ofList [0x1000]) 0x2000 8
      = Outcome.done (SetOfInts.ofList [0x1000, 0x2000]) ∧
    collectCacheLines cfg 64 fuel (SetOfInts.ofList [0x1000, 0x2000]) 0x2008 8
      = Outcome.done (SetOfInts.ofList [0x1000, 0x2000]) ∧
    (flushCacheLines cfg q (SetOfInts.ofList [0x1000, 0x2000])).completed = true ∧
    fencesAndFlushes (flushCacheLines cfg q (SetOfInts.ofList [0x1000, 0x2000]))
      = [Event.fence, Event.clflush 0x1000, Event.clflush 0x2000, Event.fence] := by
  have hw0 : env 0 % WORD = 0x1000 := by rw [h0]; decide
  have hw1 : env 1 % WORD = 0x2000 := by rw [h1]; decide
  have hnz : ∀ x, x ∈ SetOfInts.ofList [0x1000, 0x2000] → x ≠ 0 := by decide
  have hshape := flushCacheLines_shape cfg q (SetOfInts.ofList [0x1000, 0x2000]) hcfg hnz
  have helems : (SetOfInts.ofList [0x1000, 0x2000]).elems = [0x1000, 0x2000] := by decide
  refine ⟨?_, ?_, ?_, ?_, ?_, ?_⟩
  · cases tf
    · refine ⟨_, rfl, ?_⟩
      simp [storeHookValues, storeHookArgs, StoreInst.hookAddr, StoreInst.extraAddr,
        Val.eval, hw0, hw1, wadd]
      decide
    · refine ⟨_, rfl, ?_⟩
      simp [storeHookValues, storeHookArgs, StoreInst.hookAddr, StoreInst.extraAddr,
        Val.eval, hw0, hw1, wadd]
      decide
  · rw [collectCacheLines_cfg cfg _ _ _ _ _ hcfg]
    exact collectCacheLines_more_fuel _ _ 1 fuel _ _ _ _ hfuel (by decide)
  · rw [collectCacheLines_cfg cfg _ _ _ _ _ hcfg]
    exact collectCacheLines_more_fuel _ _ 1 fuel _ _ _ _ hfuel (by decide)
  · rw [collectCacheLines_cfg cfg _ _ _ _ _ hcfg]
    exact collectCacheLines_more_fuel _ _ 1 fuel _ _ _ _ hfuel (by decide)
  · rw [hshape]
  · rw [hshape, helems]
    cases hg : cfg.globalCommit
    · simp [fencesAndFlushes, flushLoop, Event.isQuery]
    · obtain ⟨hq0, hq1⟩ := hopen hg
      simp [fencesAndFlushes, flushLoop, Event.isQuery, hq0, hq1]

/-! ## The pass on a whole function -/

theorem performNvmInstrumentation_append (tf : Bool) (fresh : Nat → Nat) :
    ∀ (xs ys : List SrcInstr) (i : Nat) (X Y : List Instr),
      performNvmInstrumentation tf fresh i xs = some X →
      performNvmInstrumentation tf fresh (i + xs.length) ys = some Y →
      performNvmInstrumentation tf fresh i (xs ++ ys) = some (X ++ Y) := by
  intro xs
  induction xs with
  | nil =>
    intro ys i X Y hX hY
    simp only [performNvmInstrumentation, Option.some.injEq] at hX
    subst hX
    simpa using hY
  | cons I rest ih =>
    intro ys i X Y hX hY
    simp only [performNvmInstrumentation] at hX
    cases he : expandInstr tf (fresh i) I with
    | none => rw [he] at hX; simp at hX
    | some e =>
      cases hr : performNvmInstrumentation tf fresh (i + 1) rest with
      | none => rw [he, hr] at hX; simp at hX
      | some R =>
        rw [he, hr] at hX
        simp only [Option.some.injEq] at hX
        subst hX
        have hY2 : performNvmInstrumentation tf fresh (i + 1 + rest.length) ys = some Y := by
          have e : i + 1 + rest.length = i + (I :: rest).length := by
            simp only [List.length_cons]; omega
          rw [e]; exact hY
        have hrec := ih ys (i + 1) R Y hr hY2
        have key : performNvmInstrumentation tf fresh i ((I :: rest) ++ ys) =
            (match expandInstr tf (fresh i) I,
              performNvmInstrumentation tf fresh (i + 1) (rest ++ ys) with
            | some e, some r => some (e ++ r)
            | _, _ => none) := rfl
        rw [key, he, hrec, List.append_assoc]

theorem performNvmInstrumentation_single (tf : Bool) (fresh : Nat → Nat) (i : Nat)
    (I : SrcInstr) (e : List Instr) (h : expandInstr tf (fresh i) I = some e) :
    performNvmInstrumentation tf fresh i [I] = some e := by
  simp [performNvmInstrumentation, h]

theorem getCallOperationType_strcat (c : CallInst) (name : String)
    (hcallee : c.calledFunction = some ⟨name, true⟩)
    (hname : name = StrCatName ∨ name = StrNCatName) :
    getCallOperationType c = CallOpType.StrCat ∨
      getCallOperationType c = CallOpType.StrNCat := by
  unfold getCallOperationType
  rw [hcallee]
  rcases hname with rfl | rfl
  · left; decide
  · right; decide

/-- C12. For every call of a declaration named `strcat` or `strncat` with destination
operand `dst`, in a function whose other instructions the pass handles without a failed
assertion, the function after the pass has at the place of the call, in this order: the
length query `nvm_strlen(dst)`, the log hook `nvm_strcat(dst, length)` on the result of
that query, the original call, and the flush call (`nvm_psync_acq`, or
`AsyncMemOpDataFlush` when `USE_TABLE_FLUSH` is set) with the same two arguments. -/
theorem strcat_site_order (tf : Bool) (fresh : Nat → Nat) (pre post : List SrcInstr)
    (P Q : List Instr) (c : CallInst) (name : String) (dst : Val) (rest : List Val)
    (hcallee : c.calledFunction = some ⟨name, true⟩)
    (hname : name = StrCatName ∨ name = StrNCatName)
    (hargs : c.args = dst :: rest)
    (hpre : performNvmInstrumentation tf fresh 0 pre = some P)
    (hpost : performNvmInstrumentation tf fresh (pre.length + 1) post = some Q) :
    runOnFunction tf fresh (pre ++ SrcInstr.call c :: post) =
      some (P ++
        [Instr.hookValue FuncEntry.StrLenFuncEntry [dst] (fresh pre.length),
         Instr.hook FuncEntry.StrCatFuncEntry [dst, Val.operand (fresh pre.length) false],
         Instr.call c,
         Instr.hook (if tf then FuncEntry.AsyncMemOpDataFlushEntry
            else FuncEntry.PsyncAcqFuncEntry) [dst, Val.operand (fresh pre.length) false]]
        ++ Q) := by
  have hexp : expandInstr tf (fresh (0 + pre.length)) (SrcInstr.call c) =
      some [Instr.hookValue FuncEntry.StrLenFuncEntry [dst] (fresh pre.length),
         Instr.hook FuncEntry.StrCatFuncEntry [dst, Val.operand (fresh pre.length) false],
         Instr.call c,
         Instr.hook (if tf then FuncEntry.AsyncMemOpDataFlushEntry
            else FuncEntry.PsyncAcqFuncEntry) [dst, Val.operand (fresh pre.length) false]] := by
    rw [Nat.zero_add]
    rcases getCallOperationType_strcat c name hcallee hname with h | h
    · simp only [expandInstr, h, instrumentStrCat, hargs, memOpFlushEntry]
    · simp only [expandInstr, h, instrumentStrCat, hargs, memOpFlushEntry]
  have hsite := performNvmInstrumentation_single tf fresh (0 + pre.length) _ _ hexp
  have hpost2 : performNvmInstrumentation tf fresh (0 + pre.length + [SrcInstr.call c].length)
      post = some Q := by
    simpa using hpost
  have h1 := performNvmInstrumentation_append tf fresh [SrcInstr.call c] post
    (0 + pre.length) _ Q hsite hpost2
  have h2 := performNvmInstrumentation_append tf fresh pre ([SrcInstr.call c] ++ post) 0 P _
    hpre h1
  unfold runOnFunction
  simpa [List.append_assoc] using h2

theorem strcat_site_order_witness :
    runOnFunction false (fun i => 100 + i)
        ([SrcInstr.other 7] ++
          SrcInstr.call ⟨some ⟨StrCatName, true⟩, [Val.operand 0 false, Val.operand 1 false],
            true⟩ :: [SrcInstr.other 8]) =
      some ([Instr.other 7] ++
        [Instr.hookValue FuncEntry.StrLenFuncEntry [Val.operand 0 false]
            ((fun i => 100 + i) [SrcInstr.other 7].length),
         Instr.hook FuncEntry.StrCatFuncEntry [Val.operand 0 false,
            Val.operand ((fun i => 100 + i) [SrcInstr.other 7].length) false],
         Instr.call ⟨some ⟨StrCatName, true⟩, [Val.operand 0 false, Val.operand 1 false],
            true⟩,
         Instr.hook (if false then FuncEntry.AsyncMemOpDataFlushEntry
            else FuncEntry.PsyncAcqFuncEntry) [Val.operand 0 false,
            Val.operand ((fun i => 100 + i) [SrcInstr.other 7].length) false]]
        ++ [Instr.other 8]) :=
  strcat_site_order false (fun i => 100 + i) [SrcInstr.other 7] [SrcInstr.other 8]
    [Instr.other 7] [Instr.other 8]
    ⟨some ⟨StrCatName, true⟩, [Val.operand 0 false, Val.operand 1 false], true⟩
    StrCatName (Val.operand 0 false) [Val.operand 1 false] rfl (Or.inl rfl) rfl rfl rfl

theorem end_to_end_example_witness :
    (∃ seq, runOnFunction false (fun i => 100 + i)
        [SrcInstr.store ⟨LType.integer 32, Val.operand 0 false, false⟩ false,
         SrcInstr.store ⟨LType.integer 128, Val.operand 1 false, false⟩ false] = some seq ∧
      storeHookValues (fun i => if i = 0 then 0x1000 else 0x2000) seq
        = [[0x1000, 32], [0x2000, 64], [0x2008, 64]]) ∧
    collectCacheLines ⟨false, true⟩ 64 1 SetOfInts.empty 0x1000 4
      = Outcome.done (SetOfInts.ofList [0x1000]) ∧
    collectCacheLines ⟨false, true⟩ 64 1 (SetOfInts.ofList [0x1000]) 0x2000 8
      = Outcome.done (SetOfInts.ofList [0x1000, 0x2000]) ∧
    collectCacheLines ⟨false, true⟩ 64 1 (SetOfInts.ofList [0x1000, 0x2000]) 0x2008 8
      = Outcome.done (SetOfInts.ofList [0x1000, 0x2000]) ∧
    (flushCacheLines ⟨false, true⟩ (fun _ _ => true)
      (SetOfInts.ofList [0x1000, 0x2000])).completed = true ∧
    fencesAndFlushes (flushCacheLines ⟨false, true⟩ (fun _ _ => true)
        (SetOfInts.ofList [0x1000, 0x2000]))
      = [Event.fence, Event.clflush 0x1000, Event.clflush 0x2000, Event.fence] :=
  end_to_end_example false (fun i => 100 + i) (fun i => if i = 0 then 0x1000 else 0x2000)
    ⟨false, true⟩ (fun _ _ => true) 1 rfl rfl (by decide) rfl (fun _ => ⟨rfl, rfl⟩)

/-! ## Lock sites -/

/-- C13 (the code at the failing input). A call of the body-less declaration
`llvm.memset.p0i8.i64` (and of `llvm.memset.p0i8.i32`) with five operands is classified
as `None`, and the pass leaves it as it is, without `nvm_memset` and without a flush
call; the same call of `llvm.memcpy.p0i8.p0i8.i64` and of `llvm.memmove.p0i8.p0i8.i64`
is classified as `MemCpy` and `MemMove` and gets its hook with operands 0 and 2. -/
theorem memset_call_not_classified :
    getCallOperationType ⟨some ⟨MemSet64Name, true⟩,
        [Val.operand 0 false, Val.constInt 0, Val.operand 1 false, Val.constInt 1,
          Val.constInt 0], true⟩ = CallOpType.None ∧
    getCallOperationType ⟨some ⟨MemSet32Name, true⟩,
        [Val.operand 0 false, Val.constInt 0, Val.operand 1 false, Val.constInt 1,
          Val.constInt 0], true⟩ = CallOpType.None ∧
    runOnFunction false (fun i => 100 + i)
        [SrcInstr.call ⟨some ⟨MemSet64Name, true⟩,
          [Val.operand 0 false, Val.constInt 0, Val.operand 1 false, Val.constInt 1,
            Val.constInt 0], true⟩] =
      some [Instr.call ⟨some ⟨MemSet64Name, true⟩,
          [Val.operand 0 false, Val.constInt 0, Val.operand 1 false, Val.constInt 1,
            Val.constInt 0], true⟩] ∧
    runOnFunction false (fun i => 100 + i)
        [SrcInstr.call ⟨some ⟨MemCpy64Name, true⟩,
          [Val.operand 0 false, Val.operand 2 false, Val.operand 1 false, Val.constInt 1,
            Val.constInt 0], true⟩] =
      some [Instr.hook FuncEntry.MemCpyFuncEntry [Val.operand 0 false, Val.operand 1 false],
        Instr.call ⟨some ⟨MemCpy64Name, true⟩,
          [Val.operand 0 false, Val.operand 2 false, Val.operand 1 false, Val.constInt 1,
            Val.constInt 0], true⟩,
        Instr.hook FuncEntry.PsyncAcqFuncEntry [Val.operand 0 false, Val.operand 1 false]] ∧
    runOnFunction false (fun i => 100 + i)
        [SrcInstr.call ⟨some ⟨MemMove64Name, true⟩,
          [Val.operand 0 false, Val.operand 2 false, Val.operand 1 false, Val.constInt 1,
            Val.constInt 0], true⟩] =
      some [Instr.hook FuncEntry.MemMoveFuncEntry [Val.operand 0 false, Val.operand 1 false],
        Instr.call ⟨some ⟨MemMove64Name, true⟩,
          [Val.operand 0 false, Val.operand 2 false, Val.operand 1 false, Val.constInt 1,
            Val.constInt 0], true⟩,
        Instr.hook FuncEntry.PsyncAcqFuncEntry [Val.operand 0 false, Val.operand 1 false]] := by
  decide

/-! ## Operand sizes of stores -/

/-- C14 (amended). A store of a value of integer, `float`, `double`, `x86_fp80`,
`fp128` or pointer type (the types with a width `w` for the pass) is instrumented
without a failed assertion, the store kept and at least one `nvm_store` call made, when
`w` is at most 64 bits, or at most 128 bits and a multiple of 8; it ends in a failed
assertion, with no `nvm_store` call made, when `w` exceeds 128 bits. -/
theorem instrumentStore_sizes (tf : Bool) (s : StoreInst) (w : Nat)
    (hw : storedSize s.valTy = some w) :
    ((w ≤ 64 ∨ (w ≤ 128 ∧ w % 8 = 0)) →
      ∃ seq, instrumentStore tf s = some seq ∧ Instr.store s ∈ seq ∧
        0 < (storeHookArgs seq).length) ∧
    (128 < w → instrumentStore tf s = none) ∧
    (∀ n, storedSize (LType.integer n) = some n) ∧
    storedSize LType.float = some 32 ∧ storedSize LType.double = some 64 ∧
    storedSize LType.x86_fp80 = some 80 ∧ storedSize LType.fp128 = some 128 ∧
    storedSize LType.pointer = some 64 := by
  refine ⟨?_, ?_, fun n => rfl, rfl, rfl, rfl, rfl, rfl⟩
  · intro hok
    have hsplit : ∃ sz ex, splitSize w = some (sz, ex) := by
      unfold splitSize
      by_cases h64 : w > 64
      · rcases hok with h | ⟨h1, h2⟩
        · omega
        · rw [if_pos h64, if_pos h1, if_pos h2]; exact ⟨_, _, rfl⟩
      · rw [if_neg h64]; exact ⟨_, _, rfl⟩
    obtain ⟨sz, ex, hsp⟩ := hsplit
    unfold instrumentStore
    rw [hw]
    simp only [hsp]
    refine ⟨_, rfl, by simp, ?_⟩
    cases s.addrIsInt8Ptr <;> cases hc : s.addr.isConstant <;>
      simp [insertIfInstruction, storeHookArgs, Val.isConstant, hc]
  · intro hbig
    have hsplit : splitSize w = none := by
      unfold splitSize
      rw [if_pos (by omega), if_neg (by omega)]
    unfold instrumentStore
    rw [hw]
    simp only [hsplit]

theorem instrumentStore_sizes_witness :
    (∃ seq, instrumentStore false ⟨LType.double, Val.operand 0 false, false⟩ = some seq ∧
        Instr.store ⟨LType.double, Val.operand 0 false, false⟩ ∈ seq ∧
        0 < (storeHookArgs seq).length) ∧
      instrumentStore false ⟨LType.integer 256, Val.operand 0 false, false⟩ = none :=
  ⟨(instrumentStore_sizes false ⟨LType.double, Val.operand 0 false, false⟩ 64 rfl).1
      (Or.inl (by decide)),
    (instrumentStore_sizes false ⟨LType.integer 256, Val.operand 0 false, false⟩ 256 rfl).2.1
      (by decide)⟩

/-- C14 (counterexample). Stores of a `half` value (a floating-point type of 16 bits),
of a `ppc_fp128` value (a floating-point type of 128 bits) and of an `i100` value (an
integer of 100 bits) all have a width of at most 128 bits, and the instrumentation of
each ends in a failed assertion: `assert(0)` for the two floating-point types that the
type test does not list, `assert(!(sz % 8))` for the integer. -/
theorem instrumentStore_fails_below_128 :
    LType.half.getPrimitiveSizeInBits = 16 ∧
      instrumentStore false ⟨LType.half, Val.operand 0 false, false⟩ = none ∧
    LType.ppc_fp128.getPrimitiveSizeInBits = 128 ∧
      instrumentStore false ⟨LType.ppc_fp128, Val.operand 0 false, false⟩ = none ∧
    storedSize (LType.integer 100) = some 100 ∧
      instrumentStore false ⟨LType.integer 100, Val.operand 0 false, false⟩ = none := by
  decide

/-! ## Full and empty at once -/

/-- C17. For every `CbLog` with `uint32_t` fields, `Size ≥ 2` and `End < Size` (whatever
`Start` is, below `Size` or not), `isFull()` and `isEmpty()` are not both true. For `Size == 1` with `Start == End == 0`
(and any `isFilled`) both are true at once, and no append is allowed: a buffer of
capacity 1 is full and empty together and holds no entry. -/
theorem isFull_isEmpty_exclusive (c : CbLog) (f : Nat) (hr : c.inRange)
    (hsize : 2 ≤ c.Size) (hend : c.End < c.Size) :
    ¬ (c.isFull = some true ∧ c.isEmpty = true) ∧
      (CbLog.isFull ⟨1, f, 0, 0⟩ = some true ∧ CbLog.isEmpty ⟨1, f, 0, 0⟩ = true ∧
        CbLog.append ⟨1, f, 0, 0⟩ = none ∧ CbLog.retire ⟨1, f, 0, 0⟩ = none) := by
  constructor
  · rintro ⟨hfull, hempty⟩
    obtain ⟨h1, -, -, -⟩ := hr
    unfold WORD32 at h1
    unfold CbLog.isFull WORD32 at hfull
    unfold CbLog.isEmpty at hempty
    rw [if_neg (by omega), Nat.mod_eq_of_lt (show c.End + 1 < 2 ^ 32 by omega),
      succ_mod_of_lt _ _ hend] at hfull
    simp only [Option.some.injEq, decide_eq_true_eq] at hfull hempty
    split_ifs at hfull <;> omega
  · refine ⟨?_, ?_, ?_, ?_⟩
    · simp [CbLog.isFull, WORD32, Nat.mod_one]
    · simp [CbLog.isEmpty]
    · simp [CbLog.append, CbLog.isFull, WORD32, Nat.mod_one]
    · simp [CbLog.retire, CbLog.isEmpty]

theorem isFull_isEmpty_exclusive_witness :
    ¬ (CbLog.isFull ⟨2, 0, 1, 0⟩ = some true ∧ CbLog.isEmpty ⟨2, 0, 1, 0⟩ = true) ∧
      (CbLog.isFull ⟨1, 0, 0, 0⟩ = some true ∧ CbLog.isEmpty ⟨1, 0, 0, 0⟩ = true ∧
        CbLog.append ⟨1, 0, 0, 0⟩ = none ∧ CbLog.retire ⟨1, 0, 0, 0⟩ = none) :=
  isFull_isEmpty_exclusive ⟨2, 0, 1, 0⟩ 0 (by decide) (by decide) (by decide)

/-! ## Union semantics and the number of rounds -/

theorem lines_iff_masked_bytes (k a s x : Nat) (hk : k < 64) (hs : 0 < s)
    (hfit : a + s + 2 ^ k ≤ 2 ^ 64) :
    (∃ q, a / 2 ^ k ≤ q ∧ q ≤ (a + s - 1) / 2 ^ k ∧ x = 2 ^ k * q) ↔
      ∃ b, a ≤ b ∧ b < a + s ∧ x = b &&& get_cache_line_mask (2 ^ k) := by
  have hL : 0 < 2 ^ k := Nat.pow_pos (by norm_num)
  constructor
  · rintro ⟨q, h1, h2, rfl⟩
    obtain ⟨b, hb1, hb2, hb3⟩ := exists_byte_of_line (2 ^ k) a s q hL hs h1 h2
    exact ⟨b, hb1, hb2, by rw [land_mask k (le_of_lt hk) b (by omega), hb3]⟩
  · rintro ⟨b, hb1, hb2, rfl⟩
    exact ⟨b / 2 ^ k, Nat.div_le_div_right hb1, Nat.div_le_div_right (by omega),
      land_mask k (le_of_lt hk) b (by omega)⟩

/-- C15 (amended). In a build without `_FORCE_FAIL`, for a line size `L = 2 ^ k`, every
set `S` and ranges `(a1, s1)`, `(a2, s2)` with positive sizes and
`a + s + L ≤ 2 ^ 64` each: collecting a range into `S` returns exactly `S` united with
the lines of that range, the set `{ b & mask | a ≤ b < a + s }` (so the keys of `S` are
kept and, for `S` empty, the result is that set of lines); collecting the two ranges in
either order returns the same set, `S` united with the lines of both ranges; collecting
the same range again returns the same set; and the keys of a set are distinct. -/
theorem collectCacheLines_union (cfg : BuildCfg) (k fuel : Nat) (S : SetOfInts)
    (a1 s1 a2 s2 : Nat) (hcfg : cfg.forceFail = false) (hk : k < 64)
    (hs1 : 0 < s1) (hs2 : 0 < s2)
    (hfit1 : a1 + s1 + 2 ^ k ≤ 2 ^ 64) (hfit2 : a2 + s2 + 2 ^ k ≤ 2 ^ 64)
    (hfuel1 : (a1 % 2 ^ k + s1 + 2 ^ k - 1) / 2 ^ k ≤ fuel)
    (hfuel2 : (a2 % 2 ^ k + s2 + 2 ^ k - 1) / 2 ^ k ≤ fuel) :
    ∃ l1 r1 r2 r12,
      collectCacheLines cfg (2 ^ k) fuel SetOfInts.empty a1 s1 = Outcome.done l1 ∧
      (∀ x, x ∈ l1 ↔
        ∃ b, a1 ≤ b ∧ b < a1 + s1 ∧ x = b &&& get_cache_line_mask (2 ^ k)) ∧
      collectCacheLines cfg (2 ^ k) fuel S a1 s1 = Outcome.done r1 ∧
      (∀ x, x ∈ r1 ↔ (x ∈ S ∨
        ∃ b, a1 ≤ b ∧ b < a1 + s1 ∧ x = b &&& get_cache_line_mask (2 ^ k))) ∧
      (∀ x, x ∈ r1 ↔ (x ∈ S ∨ x ∈ l1)) ∧
      collectCacheLines cfg (2 ^ k) fuel S a2 s2 = Outcome.done r2 ∧
      (∀ x, x ∈ r2 ↔ (x ∈ S ∨
        ∃ b, a2 ≤ b ∧ b < a2 + s2 ∧ x = b &&& get_cache_line_mask (2 ^ k))) ∧
      collectCacheLines cfg (2 ^ k) fuel r1 a2 s2 = Outcome.done r12 ∧
      collectCacheLines cfg (2 ^ k) fuel r2 a1 s1 = Outcome.done r12 ∧
      (∀ x, x ∈ r12 ↔ (x ∈ S ∨
        (∃ b, a1 ≤ b ∧ b < a1 + s1 ∧ x = b &&& get_cache_line_mask (2 ^ k)) ∨
        ∃ b, a2 ≤ b ∧ b < a2 + s2 ∧ x = b &&& get_cache_line_mask (2 ^ k))) ∧
      collectCacheLines cfg (2 ^ k) fuel r1 a1 s1 = Outcome.done r1 ∧
      r1.elems.Nodup ∧ r12.elems.Nodup := by
  have hL : 0 < 2 ^ k := Nat.pow_pos (by norm_num)
  have hc1 := ceil_lines_eq (2 ^ k) a1 s1 hL hs1
  have hc2 := ceil_lines_eq (2 ^ k) a2 s2 hL hs2
  have hf1 : (a1 + s1 - 1) / 2 ^ k - a1 / 2 ^ k < fuel := by omega
  have hf2 : (a2 + s2 - 1) / 2 ^ k - a2 / 2 ^ k < fuel := by omega
  have hb1 := fun x => lines_iff_masked_bytes k a1 s1 x hk hs1 hfit1
  have hb2 := fun x => lines_iff_masked_bytes k a2 s2 x hk hs2 hfit2
  obtain ⟨l1, hl1, ml1⟩ :=
    collectCacheLines_lines cfg k fuel SetOfInts.empty a1 s1 hcfg hk hs1 hfit1 hf1
  obtain ⟨r1, hr1, m1⟩ := collectCacheLines_lines cfg k fuel S a1 s1 hcfg hk hs1 hfit1 hf1
  obtain ⟨r2, hr2, m2⟩ := collectCacheLines_lines cfg k fuel S a2 s2 hcfg hk hs2 hfit2 hf2
  obtain ⟨r12, hr12, m12⟩ :=
    collectCacheLines_lines cfg k fuel r1 a2 s2 hcfg hk hs2 hfit2 hf2
  obtain ⟨r21, hr21, m21⟩ :=
    collectCacheLines_lines cfg k fuel r2 a1 s1 hcfg hk hs1 hfit1 hf1
  obtain ⟨r11, hr11, m11⟩ :=
    collectCacheLines_lines cfg k fuel r1 a1 s1 hcfg hk hs1 hfit1 hf1
  simp only [hb1] at ml1 m1 m21 m11
  simp only [hb2] at m2 m12
  have ml1b : ∀ x, x ∈ l1 ↔
      ∃ b, a1 ≤ b ∧ b < a1 + s1 ∧ x = b &&& get_cache_line_mask (2 ^ k) := by
    intro x
    rw [ml1]
    constructor
    · rintro (h | h)
      · exact absurd h (SetOfInts.not_mem_empty x)
      · exact h
    · intro h
      exact Or.inr h
  have e21 : r21 = r12 := by
    apply SetOfInts.ext
    intro x
    rw [m21, m12, m2, m1]
    exact or_right_comm
  have e11 : r11 = r1 := by
    apply SetOfInts.ext
    intro x
    rw [m11, m1, or_assoc, or_self]
  refine ⟨l1, r1, r2, r12, hl1, ml1b, hr1, m1, ?_, hr2, m2, hr12,
    by rw [← e21]; exact hr21, ?_, by rw [← e11] at hr11 ⊢; exact hr11, r1.nodup,
    r12.nodup⟩
  · intro x
    rw [m1, ml1b]
  · intro x
    rw [m12, m1, or_assoc]

theorem collectCacheLines_union_witness :
    ∃ l1 r1 r2 r12,
      collectCacheLines ⟨false, false⟩ (2 ^ 6) 3 SetOfInts.empty 100 100 = Outcome.done l1 ∧
      (∀ x, x ∈ l1 ↔
        ∃ b, 100 ≤ b ∧ b < 100 + 100 ∧ x = b &&& get_cache_line_mask (2 ^ 6)) ∧
      collectCacheLines ⟨false, false⟩ (2 ^ 6) 3 (SetOfInts.ofList [4096]) 100 100
        = Outcome.done r1 ∧
      (∀ x, x ∈ r1 ↔ (x ∈ SetOfInts.ofList [4096] ∨
        ∃ b, 100 ≤ b ∧ b < 100 + 100 ∧ x = b &&& get_cache_line_mask (2 ^ 6))) ∧
      (∀ x, x ∈ r1 ↔ (x ∈ SetOfInts.ofList [4096] ∨ x ∈ l1)) ∧
      collectCacheLines ⟨false, false⟩ (2 ^ 6) 3 (SetOfInts.ofList [4096]) 150 100
        = Outcome.done r2 ∧
      (∀ x, x ∈ r2 ↔ (x ∈ SetOfInts.ofList [4096] ∨
        ∃ b, 150 ≤ b ∧ b < 150 + 100 ∧ x = b &&& get_cache_line_mask (2 ^ 6))) ∧
      collectCacheLines ⟨false, false⟩ (2 ^ 6) 3 r1 150 100 = Outcome.done r12 ∧
      collectCacheLines ⟨false, false⟩ (2 ^ 6) 3 r2 100 100 = Outcome.done r12 ∧
      (∀ x, x ∈ r12 ↔ (x ∈ SetOfInts.ofList [4096] ∨
        (∃ b, 100 ≤ b ∧ b < 100 + 100 ∧ x = b &&& get_cache_line_mask (2 ^ 6)) ∨
        ∃ b, 150 ≤ b ∧ b < 150 + 100 ∧ x = b &&& get_cache_line_mask (2 ^ 6))) ∧
      collectCacheLines ⟨false, false⟩ (2 ^ 6) 3 r1 100 100 = Outcome.done r1 ∧
      r1.elems.Nodup ∧ r12.elems.Nodup :=
  collectCacheLines_union ⟨false, false⟩ 6 3 (SetOfInts.ofList [4096]) 100 100 150 100 rfl
    (by decide) (by decide) (by decide) (by decide) (by decide) (by decide) (by decide)

/-- C15 (counterexample). With line size 64 and the set `{4096}`, collecting the single
byte at `2 ^ 64 - 1` never returns, whatever the step budget: the range lies in the top
line of the address space, the stepped line address wraps to 0, and the loop goes on.
No set, united or not, comes out of the call. -/
theorem collectCacheLines_union_fails_at_top_byte :
    ¬ ∃ fuel r, collectCacheLines ⟨false, false⟩ (2 ^ 6) fuel (SetOfInts.ofList [4096])
        (2 ^ 64 - 1) 1 = Outcome.done r := by
  rintro ⟨fuel, r, hr⟩
  have h : collectCacheLines ⟨false, false⟩ (2 ^ 6) fuel (SetOfInts.ofList [4096])
      (2 ^ 64 - 1) 1 = Outcome.outOfFuel := by
    unfold collectCacheLines
    rw [failsAtEntry_eq_false _ rfl]
    simp only [Bool.false_eq_true, if_false]
    rw [if_neg (by norm_num)]
    have e1 : (wsub (wadd (2 ^ 64 - 1) 1) 1) &&& get_cache_line_mask (2 ^ 6)
        = 2 ^ 64 - 64 := by decide
    have e2 : (2 ^ 64 - 1) &&& get_cache_line_mask (2 ^ 6) = 2 ^ 64 - 64 := by decide
    simp only [e1, e2]
    exact collectLoop_top_line_runs_on fuel _ _ (by norm_num)
  rw [h] at hr
  exact Outcome.noConfusion hr

/-- C18. In a build without `_FORCE_FAIL`, for a line size `L = 2 ^ k`, every `addr`
and `sz > 0` with `addr + sz ≤ 2 ^ 64 - L`, the do-while loop of `collectCacheLines`
makes exactly `(lastLine - firstLine) / L + 1` rounds, where
`firstLine = addr & mask` and `lastLine = (addr + sz - 1) & mask`: with a budget of that
many rounds (or more) the routine returns, and with any smaller budget the loop is still
running when the budget ends. -/
theorem collectCacheLines_rounds (cfg : BuildCfg) (k : Nat) (set : SetOfInts)
    (addr sz : Nat) (hcfg : cfg.forceFail = false) (hk : k < 64) (hs : 0 < sz)
    (hfit : addr + sz ≤ 2 ^ 64 - 2 ^ k) :
    (∀ fuel, (((addr + sz - 1) &&& get_cache_line_mask (2 ^ k))
          - (addr &&& get_cache_line_mask (2 ^ k))) / 2 ^ k + 1 ≤ fuel →
        ∃ r, collectCacheLines cfg (2 ^ k) fuel set addr sz = Outcome.done r) ∧
    (∀ fuel, fuel < (((addr + sz - 1) &&& get_cache_line_mask (2 ^ k))
          - (addr &&& get_cache_line_mask (2 ^ k))) / 2 ^ k + 1 →
        collectCacheLines cfg (2 ^ k) fuel set addr sz = Outcome.outOfFuel) := by
  have hL : 0 < 2 ^ k := Nat.pow_pos (by norm_num)
  have hLW : 2 ^ k < 2 ^ 64 := Nat.pow_lt_pow_right (by norm_num) hk
  have hfit2 : addr + sz + 2 ^ k ≤ 2 ^ 64 := by omega
  have hq : addr / 2 ^ k ≤ (addr + sz - 1) / 2 ^ k := Nat.div_le_div_right (by omega)
  have hb : 2 ^ k * ((addr + sz - 1) / 2 ^ k) ≤ addr + sz - 1 := Nat.mul_div_le _ _
  have e1 : wadd addr sz = addr + sz := wadd_of_lt addr sz (by omega)
  have e2 : wsub (addr + sz) 1 = addr + sz - 1 :=
    wsub_one_of_pos (addr + sz) (by omega) (by omega)
  have e3 := land_mask k (le_of_lt hk) addr (by omega)
  have e4 := land_mask k (le_of_lt hk) (addr + sz - 1) (by omega)
  have hn : (2 ^ k * ((addr + sz - 1) / 2 ^ k) - 2 ^ k * (addr / 2 ^ k)) / 2 ^ k
      = (addr + sz - 1) / 2 ^ k - addr / 2 ^ k := by
    rw [← Nat.mul_sub, Nat.mul_div_cancel_left _ hL]
  have hline : 2 ^ k * (addr / 2 ^ k) + ((addr + sz - 1) / 2 ^ k - addr / 2 ^ k) * 2 ^ k
      = 2 ^ k * ((addr + sz - 1) / 2 ^ k) := by
    have hmul : 2 ^ k * (addr / 2 ^ k) ≤ 2 ^ k * ((addr + sz - 1) / 2 ^ k) :=
      Nat.mul_le_mul_left _ hq
    rw [Nat.sub_mul, Nat.mul_comm ((addr + sz - 1) / 2 ^ k), Nat.mul_comm (addr / 2 ^ k)]
    omega
  rw [e3, e4, hn]
  constructor
  · intro fuel hfuel
    obtain ⟨r, hr, -⟩ := collectCacheLines_lines cfg k fuel set addr sz hcfg hk hs hfit2
      (by omega)
    exact ⟨r, hr⟩
  · intro fuel hfuel
    unfold collectCacheLines
    rw [failsAtEntry_eq_false cfg hcfg]
    simp only [Bool.false_eq_true, if_false]
    rw [if_neg (by omega), e1, e2, e3, e4]
    exact collectLoop_short_of_fuel (2 ^ k) _ hL (by omega) fuel
      ((addr + sz - 1) / 2 ^ k - addr / 2 ^ k) set _ hline (by omega)

theorem collectCacheLines_rounds_witness :
    (∀ fuel, (((100 + 100 - 1) &&& get_cache_line_mask (2 ^ 6))
          - (100 &&& get_cache_line_mask (2 ^ 6))) / 2 ^ 6 + 1 ≤ fuel →
        ∃ r, collectCacheLines ⟨false, false⟩ (2 ^ 6) fuel SetOfInts.empty 100 100
          = Outcome.done r) ∧
    (∀ fuel, fuel < (((100 + 100 - 1) &&& get_cache_line_mask (2 ^ 6))
          - (100 &&& get_cache_line_mask (2 ^ 6))) / 2 ^ 6 + 1 →
        collectCacheLines ⟨false, false⟩ (2 ^ 6) fuel SetOfInts.empty 100 100
          = Outcome.outOfFuel) :=
  collectCacheLines_rounds ⟨false, false⟩ 6 SetOfInts.empty 100 100 rfl (by decide)
    (by decide) (by decide)

end Atlas
